import Mathlib

/-!
Verification of the spique repository: a double-ended queue (`Spique`)
built from a doubly-linked chain of fixed-capacity circular buffers
(`RingBuffer`).  The definitions below are a shallow embedding of
`src/spique.js` and `src/ringbuffer.js`; JavaScript exceptions are
modelled with `Except`, the `undefined` slot value with `Option`, and
event emission with an explicit list of emitted events.
-/

/-- Errors thrown by the two classes (JS `throw new Error(...)`). -/
inductive Err where
  | bufferFull
  | bufferEmpty
  | queueClosed
  | queueFull
  | queueEmpty
deriving DecidableEq, Repr

deriving instance DecidableEq for Except

/-- Events emitted by a Spique (`data`, `empty`, `full`, `free`, `close`). -/
inductive Ev where
  | data
  | empty
  | full
  | free
  | close
deriving DecidableEq, Repr

/-- The ringbuffer class: fixed-size circular buffer.  `buffer` models the
JS backing array; a slot holding `none` models `undefined`. -/
structure RingBuffer (α : Type) where
  size : Nat
  head : Nat
  items : Nat
  buffer : List (Option α)
deriving DecidableEq, Repr

/-- `new RingBuffer(size)`: `head = 0`, `items = 0`, `new Array(size)`
(all slots `undefined`). -/
def mkRing (α : Type) (size : Nat) : RingBuffer α :=
  ⟨size, 0, 0, List.replicate size none⟩

namespace RingBuffer

variable {α : Type}

/-- The `free` property: `size - items`. -/
def free (r : RingBuffer α) : Nat := r.size - r.items

/-- `push(value)`: store at `(head + items) % size` and increment `items`,
or throw `Buffer is full`.  The state is returned alongside the result so
that a failing call demonstrably leaves it unchanged. -/
def push (r : RingBuffer α) (v : α) : RingBuffer α × Except Err Unit :=
  if r.items < r.size then
    let pos := (r.head + r.items) % r.size
    ({ r with buffer := r.buffer.set pos (some v), items := r.items + 1 }, .ok ())
  else (r, .error .bufferFull)

/-- `unshift(value)`: decrement `head` (wrapping to `size - 1`), store at the
new `head`, increment `items`, or throw `Buffer is full`. -/
def unshift (r : RingBuffer α) (v : α) : RingBuffer α × Except Err Unit :=
  if r.items < r.size then
    let pos := if r.head ≠ 0 then r.head - 1 else r.size - 1
    ({ r with buffer := r.buffer.set pos (some v), head := pos, items := r.items + 1 }, .ok ())
  else (r, .error .bufferFull)

/-- `pop()`: remove and return the item at `(head + items - 1) % size`,
clearing the slot, or throw `No items in buffer`. -/
def pop (r : RingBuffer α) : RingBuffer α × Except Err (Option α) :=
  if r.items = 0 then (r, .error .bufferEmpty)
  else
    let pos := (r.head + (r.items - 1)) % r.size
    let value := r.buffer.getD pos none
    ({ r with buffer := r.buffer.set pos none, items := r.items - 1 }, .ok value)

/-- `shift()`: remove and return the item at `head`, clearing the slot and
advancing `head` (wrapping), or throw `No items in buffer`. -/
def shift (r : RingBuffer α) : RingBuffer α × Except Err (Option α) :=
  if r.items = 0 then (r, .error .bufferEmpty)
  else
    let value := r.buffer.getD r.head none
    let h := if r.head + 1 = r.size then 0 else r.head + 1
    ({ r with buffer := r.buffer.set r.head none, head := h, items := r.items - 1 }, .ok value)

/-- `peek()`: the item at `(head + items - 1) % size`, read-only. -/
def peek (r : RingBuffer α) : Except Err (Option α) :=
  if r.items = 0 then .error .bufferEmpty
  else .ok (r.buffer.getD ((r.head + (r.items - 1)) % r.size) none)

/-- `peekStart()`: the item at `head`, read-only. -/
def peekStart (r : RingBuffer α) : Except Err (Option α) :=
  if r.items = 0 then .error .bufferEmpty
  else .ok (r.buffer.getD r.head none)

/-- The content of the occupied slot at logical offset `i` from `head`. -/
def slot (r : RingBuffer α) (i : Nat) : Option α :=
  r.buffer.getD ((r.head + i) % r.size) none

/-- The logical content of the buffer, oldest first. -/
def toList (r : RingBuffer α) : List (Option α) :=
  (List.range r.items).map r.slot

/-- Well-formedness of a ringbuffer state: the backing array has length
`size`, `head` is a valid index and `items` never exceeds `size`. -/
def Wf (r : RingBuffer α) : Prop :=
  r.buffer.length = r.size ∧ r.head < r.size ∧ r.items ≤ r.size

instance (r : RingBuffer α) : Decidable r.Wf :=
  inferInstanceAs (Decidable (_ ∧ _ ∧ _))

end RingBuffer

section ListHelpers

variable {β : Type}

theorem listGetDSetSelf (l : List β) (i : Nat) (a d : β) (h : i < l.length) :
    (l.set i a).getD i d = a := by
  simp [List.getD_eq_getElem?_getD, List.getElem?_set_self, h]

theorem listGetDSetNe (l : List β) (i j : Nat) (a : β) (d : β) (h : i ≠ j) :
    (l.set i a).getD j d = l.getD j d := by
  simp [List.getD_eq_getElem?_getD, List.getElem?_set_ne h]

end ListHelpers

theorem modIdxInj (h0 n i j : Nat) (hi : i < n) (hj : j < n)
    (h : (h0 + i) % n = (h0 + j) % n) : i = j := by
  have hij : i ≡ j [MOD n] := Nat.ModEq.add_left_cancel' h0 h
  have h2 : i % n = j % n := hij
  rwa [Nat.mod_eq_of_lt hi, Nat.mod_eq_of_lt hj] at h2

namespace RingBuffer

variable {α : Type}

theorem wf_mkRing (n : Nat) (hn : 0 < n) : (mkRing α n).Wf := by
  refine ⟨?_, hn, Nat.zero_le n⟩
  simp [mkRing]

theorem toList_mkRing (n : Nat) : (mkRing α n).toList = [] := rfl

theorem toList_eq_nil_of_items_eq_zero (r : RingBuffer α) (h : r.items = 0) :
    r.toList = [] := by
  simp [toList, h]

theorem length_toList (r : RingBuffer α) : r.toList.length = r.items := by
  simp [toList]

theorem sizePos (r : RingBuffer α) (hwf : r.Wf) : 0 < r.size :=
  Nat.lt_of_le_of_lt (Nat.zero_le _) hwf.2.1

theorem push_spec (r : RingBuffer α) (v : α) (hwf : r.Wf) (hlt : r.items < r.size) :
    (r.push v).2 = .ok () ∧
    (r.push v).1.toList = r.toList ++ [some v] ∧
    (r.push v).1.Wf ∧
    (r.push v).1.items = r.items + 1 ∧
    (r.push v).1.size = r.size ∧
    (r.push v).1.head = r.head := by
  obtain ⟨hbl, hhd, hit⟩ := hwf
  have hsz : 0 < r.size := Nat.lt_of_le_of_lt (Nat.zero_le _) hhd
  have hpush : r.push v =
      ({ r with
          buffer := r.buffer.set ((r.head + r.items) % r.size) (some v),
          items := r.items + 1 }, .ok ()) := by
    simp [push, hlt]
  rw [hpush]
  refine ⟨rfl, ?_, ⟨by simpa using hbl, hhd, hlt⟩, rfl, rfl, rfl⟩
  show (List.range (r.items + 1)).map
      (fun i => (r.buffer.set ((r.head + r.items) % r.size) (some v)).getD
        ((r.head + i) % r.size) none) = r.toList ++ [some v]
  rw [List.range_succ, List.map_append, List.map_singleton]
  have h2 : (r.buffer.set ((r.head + r.items) % r.size) (some v)).getD
      ((r.head + r.items) % r.size) none = some v := by
    apply listGetDSetSelf
    rw [hbl]
    exact Nat.mod_lt _ hsz
  have h1 : (List.range r.items).map
      (fun i => (r.buffer.set ((r.head + r.items) % r.size) (some v)).getD
        ((r.head + i) % r.size) none) = r.toList := by
    apply List.map_congr_left
    intro i hi
    have hi' : i < r.items := List.mem_range.mp hi
    show (r.buffer.set ((r.head + r.items) % r.size) (some v)).getD
        ((r.head + i) % r.size) none = r.slot i
    rw [listGetDSetNe]
    · rfl
    · intro hc
      have : r.items = i :=
        modIdxInj r.head r.size r.items i hlt (Nat.lt_of_lt_of_le hi' hit) hc
      omega
  rw [h1, h2]

theorem push_full (r : RingBuffer α) (v : α) (h : ¬ r.items < r.size) :
    r.push v = (r, .error .bufferFull) := by
  simp [push, h]

theorem shift_spec (r : RingBuffer α) (hwf : r.Wf) (hpos : 0 < r.items) :
    (r.shift).2 = .ok (r.slot 0) ∧
    r.toList = r.slot 0 :: (r.shift).1.toList ∧
    (r.shift).1.Wf ∧
    (r.shift).1.items = r.items - 1 ∧
    (r.shift).1.size = r.size := by
  obtain ⟨hbl, hhd, hit⟩ := hwf
  have hsz : 0 < r.size := Nat.lt_of_le_of_lt (Nat.zero_le _) hhd
  have hne : r.items ≠ 0 := by omega
  obtain ⟨k, hk⟩ : ∃ k, r.items = k + 1 := ⟨r.items - 1, by omega⟩
  have hhead : (r.head + 0) % r.size = r.head := by
    rw [Nat.add_zero]
    exact Nat.mod_eq_of_lt hhd
  have hh2 : (if r.head + 1 = r.size then 0 else r.head + 1) = (r.head + 1) % r.size := by
    by_cases hc : r.head + 1 = r.size
    · simp [hc, Nat.mod_self]
    · have hlt2 : r.head + 1 < r.size := by omega
      simp [hc, Nat.mod_eq_of_lt hlt2]
  have hshift : r.shift =
      ({ r with
          buffer := r.buffer.set r.head none,
          head := if r.head + 1 = r.size then 0 else r.head + 1,
          items := r.items - 1 }, .ok (r.buffer.getD r.head none)) := by
    simp [shift, hne]
  have hval : r.buffer.getD r.head none = r.slot 0 := by
    simp only [slot]
    rw [hhead]
  rw [hshift, hval]
  have hwf2 : (if r.head + 1 = r.size then 0 else r.head + 1) < r.size := by
    by_cases hc : r.head + 1 = r.size
    · simpa [hc] using hsz
    · have hlt2 : r.head + 1 < r.size := by omega
      simpa [hc] using hlt2
  refine ⟨rfl, ?_, ⟨by simpa using hbl, hwf2,
    Nat.le_trans (Nat.sub_le r.items 1) hit⟩, rfl, rfl⟩
  show r.toList = r.slot 0 :: (List.range (r.items - 1)).map
      (fun i => (r.buffer.set r.head none).getD
        (((if r.head + 1 = r.size then 0 else r.head + 1) + i) % r.size) none)
  have htl : r.toList = r.slot 0 :: (List.range k).map (fun i => r.slot (i + 1)) := by
    simp only [toList, hk]
    rw [List.range_succ_eq_map k]
    simp only [List.map_cons, List.map_map]
    rfl
  rw [htl, hk]
  simp only [Nat.add_sub_cancel]
  congr 1
  apply List.map_congr_left
  intro i hi
  have hi' : i < k := List.mem_range.mp hi
  have hidx : ((if r.head + 1 = r.size then 0 else r.head + 1) + i) % r.size
      = (r.head + (i + 1)) % r.size := by
    rw [hh2, Nat.mod_add_mod]
    congr 1
    omega
  rw [hidx, listGetDSetNe]
  · rfl
  · intro hc
    have hc2 : (r.head + 0) % r.size = (r.head + (i + 1)) % r.size := by
      rw [hhead]
      exact hc
    have : (0 : Nat) = i + 1 :=
      modIdxInj r.head r.size 0 (i + 1) hsz (by omega) hc2
    omega

theorem shift_empty (r : RingBuffer α) (h : r.items = 0) :
    r.shift = (r, .error .bufferEmpty) := by
  simp [shift, h]

theorem pop_spec (r : RingBuffer α) (hwf : r.Wf) (hpos : 0 < r.items) :
    (r.pop).2 = .ok (r.slot (r.items - 1)) ∧
    r.toList = (r.pop).1.toList ++ [r.slot (r.items - 1)] ∧
    (r.pop).1.Wf ∧
    (r.pop).1.items = r.items - 1 ∧
    (r.pop).1.size = r.size ∧
    (r.pop).1.head = r.head := by
  obtain ⟨hbl, hhd, hit⟩ := hwf
  have hsz : 0 < r.size := Nat.lt_of_le_of_lt (Nat.zero_le _) hhd
  have hne : r.items ≠ 0 := by omega
  obtain ⟨k, hk⟩ : ∃ k, r.items = k + 1 := ⟨r.items - 1, by omega⟩
  have hpop : r.pop =
      ({ r with
          buffer := r.buffer.set ((r.head + (r.items - 1)) % r.size) none,
          items := r.items - 1 }, .ok (r.buffer.getD ((r.head + (r.items - 1)) % r.size) none)) := by
    simp [pop, hne]
  have hval : r.buffer.getD ((r.head + (r.items - 1)) % r.size) none = r.slot (r.items - 1) := rfl
  rw [hpop, hval]
  refine ⟨rfl, ?_, ⟨by simpa using hbl, hhd,
    Nat.le_trans (Nat.sub_le r.items 1) hit⟩, rfl, rfl, rfl⟩
  show r.toList = (List.range (r.items - 1)).map
      (fun i => (r.buffer.set ((r.head + (r.items - 1)) % r.size) none).getD
        ((r.head + i) % r.size) none) ++ [r.slot (r.items - 1)]
  have htl : r.toList = (List.range k).map r.slot ++ [r.slot k] := by
    simp only [toList, hk]
    rw [List.range_succ, List.map_append, List.map_singleton]
  rw [htl, hk]
  simp only [Nat.add_sub_cancel]
  congr 1
  apply (List.map_congr_left ?_).symm
  intro i hi
  have hi' : i < k := List.mem_range.mp hi
  rw [listGetDSetNe]
  · rfl
  · intro hc
    have : k = i :=
      modIdxInj r.head r.size k i (by omega) (by omega) hc
    omega

theorem pop_empty (r : RingBuffer α) (h : r.items = 0) :
    r.pop = (r, .error .bufferEmpty) := by
  simp [pop, h]

theorem unshift_spec (r : RingBuffer α) (v : α) (hwf : r.Wf) (hlt : r.items < r.size) :
    (r.unshift v).2 = .ok () ∧
    (r.unshift v).1.toList = some v :: r.toList ∧
    (r.unshift v).1.Wf ∧
    (r.unshift v).1.items = r.items + 1 ∧
    (r.unshift v).1.size = r.size := by
  obtain ⟨hbl, hhd, hit⟩ := hwf
  have hsz : 0 < r.size := Nat.lt_of_le_of_lt (Nat.zero_le _) hhd
  have hplt : (if r.head ≠ 0 then r.head - 1 else r.size - 1) < r.size := by
    by_cases hc : r.head ≠ 0
    · simp only [if_pos hc]
      omega
    · simp only [if_neg hc]
      omega
  have hp1 : ((if r.head ≠ 0 then r.head - 1 else r.size - 1) + 1) % r.size = r.head := by
    by_cases hc : r.head ≠ 0
    · simp only [if_pos hc]
      have h1 : r.head - 1 + 1 = r.head := by omega
      rw [h1]
      exact Nat.mod_eq_of_lt hhd
    · simp only [if_neg hc]
      have h0 : r.head = 0 := by omega
      have h1 : r.size - 1 + 1 = r.size := by omega
      rw [h1, Nat.mod_self, h0]
  have hunshift : r.unshift v =
      ({ r with
          buffer := r.buffer.set (if r.head ≠ 0 then r.head - 1 else r.size - 1) (some v),
          head := if r.head ≠ 0 then r.head - 1 else r.size - 1,
          items := r.items + 1 }, .ok ()) := by
    simp only [unshift, if_pos hlt]
  rw [hunshift]
  refine ⟨rfl, ?_, ⟨by simpa using hbl, hplt, hlt⟩, rfl, rfl⟩
  show (List.range (r.items + 1)).map
      (fun i => (r.buffer.set (if r.head ≠ 0 then r.head - 1 else r.size - 1) (some v)).getD
        (((if r.head ≠ 0 then r.head - 1 else r.size - 1) + i) % r.size) none)
      = some v :: r.toList
  rw [List.range_succ_eq_map r.items, List.map_cons, List.map_map]
  congr 1
  · have hpp : ((if r.head ≠ 0 then r.head - 1 else r.size - 1) + 0) % r.size
        = (if r.head ≠ 0 then r.head - 1 else r.size - 1) := by
      rw [Nat.add_zero]
      exact Nat.mod_eq_of_lt hplt
    rw [hpp]
    apply listGetDSetSelf
    rw [hbl]
    exact hplt
  · apply List.map_congr_left
    intro i hi
    have hi' : i < r.items := List.mem_range.mp hi
    show (r.buffer.set (if r.head ≠ 0 then r.head - 1 else r.size - 1) (some v)).getD
        (((if r.head ≠ 0 then r.head - 1 else r.size - 1) + Nat.succ i) % r.size) none
        = r.slot i
    have hidx : ((if r.head ≠ 0 then r.head - 1 else r.size - 1) + Nat.succ i) % r.size
        = (r.head + i) % r.size := by
      have h1 : (if r.head ≠ 0 then r.head - 1 else r.size - 1) + Nat.succ i
          = ((if r.head ≠ 0 then r.head - 1 else r.size - 1) + 1) + i := by omega
      rw [h1, ← Nat.mod_add_mod, hp1]
    rw [hidx, listGetDSetNe]
    · rfl
    · intro hc
      have hpp : ((if r.head ≠ 0 then r.head - 1 else r.size - 1) + 0) % r.size
          = (if r.head ≠ 0 then r.head - 1 else r.size - 1) := by
        rw [Nat.add_zero]
        exact Nat.mod_eq_of_lt hplt
      have hc2 : ((if r.head ≠ 0 then r.head - 1 else r.size - 1) + 0) % r.size
          = ((if r.head ≠ 0 then r.head - 1 else r.size - 1) + Nat.succ i) % r.size := by
        rw [hpp, hidx]
        exact hc
      have : (0 : Nat) = Nat.succ i :=
        modIdxInj (if r.head ≠ 0 then r.head - 1 else r.size - 1) r.size 0 (Nat.succ i)
          hsz (by omega) hc2
      omega

theorem unshift_full (r : RingBuffer α) (v : α) (h : ¬ r.items < r.size) :
    r.unshift v = (r, .error .bufferFull) := by
  simp [unshift, h]

end RingBuffer

/-- `Number.MAX_SAFE_INTEGER`. -/
def maxSafeInteger : Nat := 2 ^ 53 - 1

/-- State of a Spique.  `chain` is the doubly-linked chain of active rings,
listed from `headRing` (first) to `tailRing` (last).  `spareAbove` is the
retired ring still linked above `headRing` (reachable as `headRing._above`),
`spareBelow` the one below `tailRing`; `rings` is the ring counter, `items`
the item counter and `closed` the internal closed flag. -/
structure Spique (α : Type) where
  size : Nat
  ringSize : Nat
  chain : List (RingBuffer α)
  spareAbove : Option (RingBuffer α)
  spareBelow : Option (RingBuffer α)
  rings : Nat
  items : Nat
  closed : Bool
deriving DecidableEq, Repr

/-- `new Spique(size, ringSize)`: one fresh ring, open, empty. -/
def mkSpique (α : Type) (size ringSize : Nat) : Spique α :=
  ⟨size, ringSize, [mkRing α ringSize], none, none, 1, 0, false⟩

namespace Spique

variable {α : Type}

/-- The `free` getter: `size ? size - items : Number.MAX_SAFE_INTEGER - items`. -/
def free (s : Spique α) : Nat :=
  if s.size ≠ 0 then s.size - s.items else maxSafeInteger - s.items

/-- The `closed` getter: `closed && !items`. -/
def closedGet (s : Spique α) : Bool := s.closed && s.items == 0

/-- `close()`: set the flag; if the queue is empty, emit `close`. -/
def close (s : Spique α) : Spique α × List Ev :=
  ({ s with closed := true }, if s.items = 0 then [Ev.close] else [])

/-- `enqueue(value)` on the direct path (no source flag, no transforms):
reject when the `closed` getter is true, reject when no `free` slot exists,
allocate (or reuse the spare ring below the tail) when the tail ring is
full, push into the tail ring, bump `items`, emit `full` and `data` as the
code does. -/
def enqueue (s : Spique α) (v : α) : Spique α × List Ev × Except Err Unit :=
  if s.closedGet then (s, [], .error .queueClosed)
  else if s.free = 0 then (s, [], .error .queueFull)
  else
    let s1 :=
      if (s.chain.getLastD (mkRing α s.ringSize)).free = 0 then
        { s with
            chain := s.chain ++ [s.spareBelow.getD (mkRing α s.ringSize)],
            spareBelow := none,
            rings := s.rings + 1 }
      else s
    match (s1.chain.getLastD (mkRing α s.ringSize)).push v with
    | (tr2, Except.ok _) =>
        let s2 := { s1 with chain := s1.chain.dropLast ++ [tr2], items := s1.items + 1 }
        (s2, (if s2.free = 0 then [Ev.full] else []) ++
             (if s2.items = 1 then [Ev.data] else []), .ok ())
    | (_, Except.error e) => (s1, [], .error e)

/-- `enqueueHead(value)` on the direct path: mirror image of `enqueue`,
using the head ring, the spare ring above it, and `unshift`. -/
def enqueueHead (s : Spique α) (v : α) : Spique α × List Ev × Except Err Unit :=
  if s.closedGet then (s, [], .error .queueClosed)
  else if s.free = 0 then (s, [], .error .queueFull)
  else
    let s1 :=
      if (s.chain.headD (mkRing α s.ringSize)).free = 0 then
        { s with
            chain := s.spareAbove.getD (mkRing α s.ringSize) :: s.chain,
            spareAbove := none,
            rings := s.rings + 1 }
      else s
    match (s1.chain.headD (mkRing α s.ringSize)).unshift v with
    | (hr2, Except.ok _) =>
        let s2 := { s1 with chain := hr2 :: s1.chain.tail, items := s1.items + 1 }
        (s2, (if s2.free = 0 then [Ev.full] else []) ++
             (if s2.items = 1 then [Ev.data] else []), .ok ())
    | (_, Except.error e) => (s1, [], .error e)

/-- `dequeue()`: reject when empty; shift from the head ring; retire the
head ring when it became empty and more than one ring is active (the
retired ring stays linked above the new head as a spare); emit `empty`,
`close` and `free` as the code does. -/
def dequeue (s : Spique α) : Spique α × List Ev × Except Err (Option α) :=
  if s.items = 0 then (s, [], .error .queueEmpty)
  else
    match (s.chain.headD (mkRing α s.ringSize)).shift with
    | (hr2, Except.ok value) =>
        let s1 := { s with chain := hr2 :: s.chain.tail, items := s.items - 1 }
        let s2 :=
          if hr2.items = 0 ∧ 1 < s1.rings then
            { s1 with chain := s1.chain.tail, spareAbove := some hr2, rings := s1.rings - 1 }
          else s1
        let evs :=
          (if s2.items = 0 then
            [Ev.empty] ++ (if s2.closed then [Ev.close] else [])
          else []) ++
          (if s2.free ≠ 0 ∧ s2.closed = false then [Ev.free] else [])
        (s2, evs, .ok value)
    | (_, Except.error e) => (s, [], .error e)

/-- `dequeueTail()`: mirror image of `dequeue` at the tail ring, using `pop`;
the retired ring stays linked below the new tail as a spare. -/
def dequeueTail (s : Spique α) : Spique α × List Ev × Except Err (Option α) :=
  if s.items = 0 then (s, [], .error .queueEmpty)
  else
    match (s.chain.getLastD (mkRing α s.ringSize)).pop with
    | (tr2, Except.ok value) =>
        let s1 := { s with chain := s.chain.dropLast ++ [tr2], items := s.items - 1 }
        let s2 :=
          if tr2.items = 0 ∧ 1 < s1.rings then
            { s1 with chain := s1.chain.dropLast, spareBelow := some tr2, rings := s1.rings - 1 }
          else s1
        let evs :=
          (if s2.items = 0 then
            [Ev.empty] ++ (if s2.closed then [Ev.close] else [])
          else []) ++
          (if s2.free ≠ 0 ∧ s2.closed = false then [Ev.free] else [])
        (s2, evs, .ok value)
    | (_, Except.error e) => (s, [], .error e)

/-- `peek()`: reject when empty; read the start of the head ring. -/
def peek (s : Spique α) : Except Err (Option α) :=
  if s.items = 0 then .error .queueEmpty
  else (s.chain.headD (mkRing α s.ringSize)).peekStart

/-- `peekTail()`: reject when empty; read the end of the tail ring. -/
def peekTail (s : Spique α) : Except Err (Option α) :=
  if s.items = 0 then .error .queueEmpty
  else (s.chain.getLastD (mkRing α s.ringSize)).peek

/-- The `newListener` hook (lines 73-83 of spique.js): whether a freshly
registered listener for `ev` is invoked immediately. -/
def newListenerFires (s : Spique α) (ev : Ev) : Bool :=
  match ev with
  | .data => s.items != 0
  | .empty => s.items == 0
  | .full => s.free == 0
  | .free => s.free != 0
  | .close => s.closedGet

/-- The logical content of the whole queue, head first. -/
def toList (s : Spique α) : List (Option α) :=
  (s.chain.map RingBuffer.toList).flatten

/-- Invariant on the spare rings: well-formed, of the configured ring size,
and empty. -/
def spareOk (n : Nat) : Option (RingBuffer α) → Prop
  | none => True
  | some r => r.Wf ∧ r.size = n ∧ r.items = 0

instance (n : Nat) : (o : Option (RingBuffer α)) → Decidable (spareOk n o)
  | none => isTrue trivial
  | some _ => inferInstanceAs (Decidable (_ ∧ _ ∧ _))

/-- Reachable-state invariant of a Spique. -/
def Inv (s : Spique α) : Prop :=
  0 < s.ringSize ∧
  0 < s.chain.length ∧
  (∀ r ∈ s.chain, r.Wf ∧ r.size = s.ringSize) ∧
  s.items = (s.chain.map RingBuffer.items).sum ∧
  s.rings = s.chain.length ∧
  (1 < s.chain.length → ∀ r ∈ s.chain, 0 < r.items) ∧
  spareOk s.ringSize s.spareAbove ∧
  spareOk s.ringSize s.spareBelow ∧
  s.items ≤ (if s.size ≠ 0 then s.size else maxSafeInteger)

instance (s : Spique α) : Decidable s.Inv :=
  inferInstanceAs (Decidable (_ ∧ _ ∧ _ ∧ _ ∧ _ ∧ _ ∧ _ ∧ _ ∧ _))

theorem inv_mkSpique (size ringSize : Nat) (h : 0 < ringSize) :
    (mkSpique α size ringSize).Inv := by
  refine ⟨h, by simp [mkSpique], ?_, by simp [mkSpique, mkRing], by simp [mkSpique], ?_,
    trivial, trivial, by simp [mkSpique]⟩
  · intro r hr
    simp only [mkSpique, List.mem_singleton] at hr
    subst hr
    exact ⟨RingBuffer.wf_mkRing ringSize h, rfl⟩
  · intro hlen
    simp [mkSpique] at hlen

theorem toList_mkSpique (size ringSize : Nat) :
    (mkSpique α size ringSize).toList = [] := by
  simp [mkSpique, toList, RingBuffer.toList_mkRing]

end Spique

section MoreListHelpers

variable {β : Type}

theorem getLastDConcat (l : List β) (a d : β) : (l ++ [a]).getLastD d = a := by
  simp

theorem dropLastConcat (l : List β) (a : β) : (l ++ [a]).dropLast = l := by
  simp

theorem getLastDMem (l : List β) (d : β) (h : l ≠ []) : l.getLastD d ∈ l := by
  cases l with
  | nil => simp at h
  | cons a t =>
    rw [List.getLastD_eq_getLast?, List.getLast?_eq_getLast _ h]
    exact List.getLast_mem h

theorem chainDecompLast (l : List β) (d : β) (h : l ≠ []) :
    l = l.dropLast ++ [l.getLastD d] := by
  cases l with
  | nil => simp at h
  | cons a t =>
    rw [List.getLastD_eq_getLast?, List.getLast?_eq_getLast _ h]
    exact (List.dropLast_append_getLast h).symm

theorem headDMem (l : List β) (d : β) (h : l ≠ []) : l.headD d ∈ l := by
  cases l with
  | nil => simp at h
  | cons a t => simp

theorem chainDecompHead (l : List β) (d : β) (h : l ≠ []) :
    l = l.headD d :: l.tail := by
  cases l with
  | nil => simp at h
  | cons a t => simp

end MoreListHelpers

namespace Spique

variable {α : Type}

theorem freeLtCap (s : Spique α) (hfree : s.free ≠ 0) :
    s.items < (if s.size ≠ 0 then s.size else maxSafeInteger) := by
  by_cases hs : s.size ≠ 0
  · simp only [free, if_pos hs] at hfree
    simp only [if_pos hs]
    omega
  · simp only [free, if_neg hs] at hfree
    simp only [if_neg hs]
    omega

theorem spareRing_facts (s : Spique α) (hrs : 0 < s.ringSize)
    (hsp : spareOk s.ringSize s.spareBelow) :
    (s.spareBelow.getD (mkRing α s.ringSize)).Wf ∧
    (s.spareBelow.getD (mkRing α s.ringSize)).size = s.ringSize ∧
    (s.spareBelow.getD (mkRing α s.ringSize)).items = 0 := by
  cases h : s.spareBelow with
  | none => exact ⟨RingBuffer.wf_mkRing _ hrs, rfl, rfl⟩
  | some sp =>
    rw [h] at hsp
    exact hsp

theorem spareRingAbove_facts (s : Spique α) (hrs : 0 < s.ringSize)
    (hsp : spareOk s.ringSize s.spareAbove) :
    (s.spareAbove.getD (mkRing α s.ringSize)).Wf ∧
    (s.spareAbove.getD (mkRing α s.ringSize)).size = s.ringSize ∧
    (s.spareAbove.getD (mkRing α s.ringSize)).items = 0 := by
  cases h : s.spareAbove with
  | none => exact ⟨RingBuffer.wf_mkRing _ hrs, rfl, rfl⟩
  | some sp =>
    rw [h] at hsp
    exact hsp

theorem enqueue_spec (s : Spique α) (v : α) (hinv : s.Inv)
    (hcl : s.closedGet = false) (hfree : s.free ≠ 0) :
    (s.enqueue v).2.2 = .ok () ∧
    (s.enqueue v).1.toList = s.toList ++ [some v] ∧
    (s.enqueue v).1.Inv ∧
    (s.enqueue v).1.items = s.items + 1 ∧
    (s.enqueue v).1.closed = s.closed ∧
    (s.enqueue v).1.size = s.size ∧
    (s.enqueue v).1.ringSize = s.ringSize := by
  obtain ⟨hrs, hlen, hwf, hsum, hrlen, hpos, hspA, hspB, hle⟩ := hinv
  have hne : s.chain ≠ [] := List.length_pos.mp hlen
  have hdecomp := chainDecompLast s.chain (mkRing α s.ringSize) hne
  have htlmem : s.chain.getLastD (mkRing α s.ringSize) ∈ s.chain :=
    getLastDMem s.chain (mkRing α s.ringSize) hne
  obtain ⟨htlwf, htlsz⟩ := hwf _ htlmem
  have hcap := s.freeLtCap hfree
  by_cases htlfree : (s.chain.getLastD (mkRing α s.ringSize)).free = 0
  · -- tail ring full: allocate (or reuse the spare below)
    obtain ⟨hbwf, hbsz, hb0⟩ := s.spareRing_facts hrs hspB
    have hblt : (s.spareBelow.getD (mkRing α s.ringSize)).items
        < (s.spareBelow.getD (mkRing α s.ringSize)).size := by
      rw [hb0, hbsz]
      exact hrs
    obtain ⟨hpok, hptl, hpwf, hpit, hpsz, hphd⟩ :=
      RingBuffer.push_spec (s.spareBelow.getD (mkRing α s.ringSize)) v hbwf hblt
    have hpe : (s.spareBelow.getD (mkRing α s.ringSize)).push v =
        (((s.spareBelow.getD (mkRing α s.ringSize)).push v).1, Except.ok ()) := by
      rw [← hpok]
    generalize hg : ((s.spareBelow.getD (mkRing α s.ringSize)).push v).1 = tr2
      at hptl hpwf hpit hpsz hpe
    have hb0' : tr2.toList = [some v] := by
      rw [hptl, RingBuffer.toList_eq_nil_of_items_eq_zero _ hb0]
      rfl
    have htlit : (s.chain.getLastD (mkRing α s.ringSize)).items = s.ringSize := by
      have h1 : (s.chain.getLastD (mkRing α s.ringSize)).size
          - (s.chain.getLastD (mkRing α s.ringSize)).items = 0 := htlfree
      have h2 := htlwf.2.2
      omega
    have key : s.enqueue v =
        ({ s with
            chain := s.chain ++ [tr2],
            spareBelow := none,
            rings := s.rings + 1,
            items := s.items + 1 },
         (if ({ s with
            chain := s.chain ++ [tr2],
            spareBelow := none,
            rings := s.rings + 1,
            items := s.items + 1 } : Spique α).free = 0 then [Ev.full] else []) ++
         (if s.items + 1 = 1 then [Ev.data] else []), .ok ()) := by
      simp only [enqueue, hcl, Bool.false_eq_true, if_false, if_neg hfree, if_pos htlfree,
        getLastDConcat, hpe, dropLastConcat]
    rw [key]
    refine ⟨rfl, ?_, ?_, rfl, rfl, rfl, rfl⟩
    · show ((s.chain ++ [tr2]).map RingBuffer.toList).flatten = s.toList ++ [some v]
      rw [List.map_append, List.flatten_append]
      simp only [List.map_cons, List.map_nil, List.flatten_cons, List.flatten_nil,
        List.append_nil]
      rw [hb0']
      rfl
    · refine ⟨hrs, by simp, ?_, ?_, ?_, ?_, hspA, trivial, ?_⟩
      · intro r hr
        rcases List.mem_append.mp hr with h | h
        · exact hwf r h
        · rw [List.mem_singleton.mp h]
          exact ⟨hpwf, by rw [hpsz, hbsz]⟩
      · show s.items + 1 = ((s.chain ++ [tr2]).map RingBuffer.items).sum
        rw [List.map_append, List.sum_append]
        simp only [List.map_cons, List.map_nil, List.sum_cons, List.sum_nil]
        rw [hpit, hb0]
        omega
      · show s.rings + 1 = (s.chain ++ [tr2]).length
        rw [List.length_append]
        simp [hrlen]
      · intro _ r hr
        rcases List.mem_append.mp hr with h | h
        · rcases Nat.lt_or_ge 1 s.chain.length with hgt | hle1
          · exact hpos hgt r h
          · have h1 : s.chain.length = 1 := by omega
            obtain ⟨x, hx⟩ := List.length_eq_one.mp h1
            have hxtl : s.chain.getLastD (mkRing α s.ringSize) = x := by
              rw [hx]
              rfl
            rw [hx] at h
            rw [List.mem_singleton.mp h, ← hxtl, htlit]
            exact hrs
        · rw [List.mem_singleton.mp h, hpit, hb0]
          exact Nat.one_pos
      · show s.items + 1 ≤ (if s.size ≠ 0 then s.size else maxSafeInteger)
        omega
  · -- tail ring has space: push in place
    have htllt : (s.chain.getLastD (mkRing α s.ringSize)).items
        < (s.chain.getLastD (mkRing α s.ringSize)).size := by
      have h1 : (s.chain.getLastD (mkRing α s.ringSize)).size
          - (s.chain.getLastD (mkRing α s.ringSize)).items ≠ 0 := htlfree
      have h2 := htlwf.2.2
      omega
    obtain ⟨hpok, hptl, hpwf, hpit, hpsz, hphd⟩ :=
      RingBuffer.push_spec (s.chain.getLastD (mkRing α s.ringSize)) v htlwf htllt
    have hpe : (s.chain.getLastD (mkRing α s.ringSize)).push v =
        (((s.chain.getLastD (mkRing α s.ringSize)).push v).1, Except.ok ()) := by
      rw [← hpok]
    generalize hg : ((s.chain.getLastD (mkRing α s.ringSize)).push v).1 = tr2
      at hptl hpwf hpit hpsz hpe
    have key : s.enqueue v =
        ({ s with
            chain := s.chain.dropLast ++ [tr2],
            items := s.items + 1 },
         (if ({ s with
            chain := s.chain.dropLast ++ [tr2],
            items := s.items + 1 } : Spique α).free = 0 then [Ev.full] else []) ++
         (if s.items + 1 = 1 then [Ev.data] else []), .ok ()) := by
      simp only [enqueue, hcl, Bool.false_eq_true, if_false, if_neg hfree, if_neg htlfree,
        hpe]
    rw [key]
    have hmemdl : ∀ r ∈ s.chain.dropLast, r ∈ s.chain := fun r hr =>
      (List.dropLast_sublist s.chain).mem hr
    have hlendl : (s.chain.dropLast ++ [tr2]).length = s.chain.length := by
      rw [List.length_append, List.length_dropLast]
      simp only [List.length_cons, List.length_nil]
      omega
    refine ⟨rfl, ?_, ?_, rfl, rfl, rfl, rfl⟩
    · show ((s.chain.dropLast ++ [tr2]).map RingBuffer.toList).flatten = s.toList ++ [some v]
      rw [List.map_append, List.flatten_append]
      simp only [List.map_cons, List.map_nil, List.flatten_cons, List.flatten_nil,
        List.append_nil]
      rw [hptl]
      conv_rhs => rw [toList, hdecomp]
      rw [List.map_append, List.flatten_append]
      simp only [List.map_cons, List.map_nil, List.flatten_cons, List.flatten_nil,
        List.append_nil, List.append_assoc]
    · refine ⟨hrs, by simp, ?_, ?_, ?_, ?_, hspA, hspB, ?_⟩
      · intro r hr
        rcases List.mem_append.mp hr with h | h
        · exact hwf r (hmemdl r h)
        · rw [List.mem_singleton.mp h]
          exact ⟨hpwf, by rw [hpsz, htlsz]⟩
      · show s.items + 1 = ((s.chain.dropLast ++ [tr2]).map RingBuffer.items).sum
        rw [List.map_append, List.sum_append]
        simp only [List.map_cons, List.map_nil, List.sum_cons, List.sum_nil]
        rw [hpit]
        conv_lhs => rw [hsum, hdecomp, List.map_append, List.sum_append]
        simp only [List.map_cons, List.map_nil, List.sum_cons, List.sum_nil]
        omega
      · show s.rings = (s.chain.dropLast ++ [tr2]).length
        rw [hlendl]
        exact hrlen
      · intro hlong r hr
        have hlong' : 1 < s.chain.length := by
          rw [← hlendl]
          exact hlong
        rcases List.mem_append.mp hr with h | h
        · exact hpos hlong' r (hmemdl r h)
        · rw [List.mem_singleton.mp h, hpit]
          exact Nat.succ_pos _
      · show s.items + 1 ≤ (if s.size ≠ 0 then s.size else maxSafeInteger)
        omega

theorem enqueueHead_spec (s : Spique α) (v : α) (hinv : s.Inv)
    (hcl : s.closedGet = false) (hfree : s.free ≠ 0) :
    (s.enqueueHead v).2.2 = .ok () ∧
    (s.enqueueHead v).1.toList = some v :: s.toList ∧
    (s.enqueueHead v).1.Inv ∧
    (s.enqueueHead v).1.items = s.items + 1 ∧
    (s.enqueueHead v).1.closed = s.closed ∧
    (s.enqueueHead v).1.size = s.size ∧
    (s.enqueueHead v).1.ringSize = s.ringSize := by
  obtain ⟨hrs, hlen, hwf, hsum, hrlen, hpos, hspA, hspB, hle⟩ := hinv
  have hne : s.chain ≠ [] := List.length_pos.mp hlen
  have hdecomp := chainDecompHead s.chain (mkRing α s.ringSize) hne
  have hhdmem : s.chain.headD (mkRing α s.ringSize) ∈ s.chain :=
    headDMem s.chain (mkRing α s.ringSize) hne
  obtain ⟨hhdwf, hhdsz⟩ := hwf _ hhdmem
  have hcap := s.freeLtCap hfree
  by_cases hhdfree : (s.chain.headD (mkRing α s.ringSize)).free = 0
  · -- head ring full: allocate (or reuse the spare above)
    obtain ⟨hbwf, hbsz, hb0⟩ := s.spareRingAbove_facts hrs hspA
    have hblt : (s.spareAbove.getD (mkRing α s.ringSize)).items
        < (s.spareAbove.getD (mkRing α s.ringSize)).size := by
      rw [hb0, hbsz]
      exact hrs
    obtain ⟨hpok, hptl, hpwf, hpit, hpsz⟩ :=
      RingBuffer.unshift_spec (s.spareAbove.getD (mkRing α s.ringSize)) v hbwf hblt
    have hpe : (s.spareAbove.getD (mkRing α s.ringSize)).unshift v =
        (((s.spareAbove.getD (mkRing α s.ringSize)).unshift v).1, Except.ok ()) := by
      rw [← hpok]
    generalize hg : ((s.spareAbove.getD (mkRing α s.ringSize)).unshift v).1 = hr2
      at hptl hpwf hpit hpsz hpe
    have hb0' : hr2.toList = [some v] := by
      rw [hptl, RingBuffer.toList_eq_nil_of_items_eq_zero _ hb0]
    have hhdit : (s.chain.headD (mkRing α s.ringSize)).items = s.ringSize := by
      have h1 : (s.chain.headD (mkRing α s.ringSize)).size
          - (s.chain.headD (mkRing α s.ringSize)).items = 0 := hhdfree
      have h2 := hhdwf.2.2
      omega
    have key : s.enqueueHead v =
        ({ s with
            chain := hr2 :: s.chain,
            spareAbove := none,
            rings := s.rings + 1,
            items := s.items + 1 },
         (if ({ s with
            chain := hr2 :: s.chain,
            spareAbove := none,
            rings := s.rings + 1,
            items := s.items + 1 } : Spique α).free = 0 then [Ev.full] else []) ++
         (if s.items + 1 = 1 then [Ev.data] else []), .ok ()) := by
      simp only [enqueueHead, hcl, Bool.false_eq_true, if_false, if_neg hfree,
        if_pos hhdfree, List.headD_cons, hpe, List.tail_cons]
    rw [key]
    refine ⟨rfl, ?_, ?_, rfl, rfl, rfl, rfl⟩
    · show ((hr2 :: s.chain).map RingBuffer.toList).flatten = some v :: s.toList
      rw [List.map_cons, List.flatten_cons, hb0']
      rfl
    · refine ⟨hrs, by simp, ?_, ?_, ?_, ?_, trivial, hspB, ?_⟩
      · intro r hr
        rcases List.mem_cons.mp hr with h | h
        · rw [h]
          exact ⟨hpwf, by rw [hpsz, hbsz]⟩
        · exact hwf r h
      · show s.items + 1 = ((hr2 :: s.chain).map RingBuffer.items).sum
        rw [List.map_cons, List.sum_cons, hpit, hb0]
        omega
      · show s.rings + 1 = (hr2 :: s.chain).length
        rw [List.length_cons]
        omega
      · intro _ r hr
        rcases List.mem_cons.mp hr with h | h
        · rw [h, hpit, hb0]
          exact Nat.one_pos
        · rcases Nat.lt_or_ge 1 s.chain.length with hgt | hle1
          · exact hpos hgt r h
          · have h1 : s.chain.length = 1 := by omega
            obtain ⟨x, hx⟩ := List.length_eq_one.mp h1
            have hxhd : s.chain.headD (mkRing α s.ringSize) = x := by
              rw [hx]
              rfl
            rw [hx] at h
            rw [List.mem_singleton.mp h, ← hxhd, hhdit]
            exact hrs
      · show s.items + 1 ≤ (if s.size ≠ 0 then s.size else maxSafeInteger)
        omega
  · -- head ring has space: unshift in place
    have hhdlt : (s.chain.headD (mkRing α s.ringSize)).items
        < (s.chain.headD (mkRing α s.ringSize)).size := by
      have h1 : (s.chain.headD (mkRing α s.ringSize)).size
          - (s.chain.headD (mkRing α s.ringSize)).items ≠ 0 := hhdfree
      have h2 := hhdwf.2.2
      omega
    obtain ⟨hpok, hptl, hpwf, hpit, hpsz⟩ :=
      RingBuffer.unshift_spec (s.chain.headD (mkRing α s.ringSize)) v hhdwf hhdlt
    have hpe : (s.chain.headD (mkRing α s.ringSize)).unshift v =
        (((s.chain.headD (mkRing α s.ringSize)).unshift v).1, Except.ok ()) := by
      rw [← hpok]
    generalize hg : ((s.chain.headD (mkRing α s.ringSize)).unshift v).1 = hr2
      at hptl hpwf hpit hpsz hpe
    have key : s.enqueueHead v =
        ({ s with
            chain := hr2 :: s.chain.tail,
            items := s.items + 1 },
         (if ({ s with
            chain := hr2 :: s.chain.tail,
            items := s.items + 1 } : Spique α).free = 0 then [Ev.full] else []) ++
         (if s.items + 1 = 1 then [Ev.data] else []), .ok ()) := by
      simp only [enqueueHead, hcl, Bool.false_eq_true, if_false, if_neg hfree,
        if_neg hhdfree, hpe]
    rw [key]
    have hmemtl : ∀ r ∈ s.chain.tail, r ∈ s.chain := fun r hr =>
      (List.tail_sublist s.chain).mem hr
    have hlentl : (hr2 :: s.chain.tail).length = s.chain.length := by
      rw [List.length_cons, List.length_tail]
      omega
    refine ⟨rfl, ?_, ?_, rfl, rfl, rfl, rfl⟩
    · show ((hr2 :: s.chain.tail).map RingBuffer.toList).flatten = some v :: s.toList
      rw [List.map_cons, List.flatten_cons, hptl]
      conv_rhs => rw [toList, hdecomp]
      rw [List.map_cons, List.flatten_cons]
      rfl
    · refine ⟨hrs, by simp, ?_, ?_, ?_, ?_, hspA, hspB, ?_⟩
      · intro r hr
        rcases List.mem_cons.mp hr with h | h
        · rw [h]
          exact ⟨hpwf, by rw [hpsz, hhdsz]⟩
        · exact hwf r (hmemtl r h)
      · show s.items + 1 = ((hr2 :: s.chain.tail).map RingBuffer.items).sum
        rw [List.map_cons, List.sum_cons, hpit]
        conv_lhs => rw [hsum, hdecomp, List.map_cons, List.sum_cons]
        omega
      · show s.rings = (hr2 :: s.chain.tail).length
        rw [hlentl]
        exact hrlen
      · intro hlong r hr
        have hlong' : 1 < s.chain.length := by
          rw [← hlentl]
          exact hlong
        rcases List.mem_cons.mp hr with h | h
        · rw [h, hpit]
          exact Nat.succ_pos _
        · exact hpos hlong' r (hmemtl r h)
      · show s.items + 1 ≤ (if s.size ≠ 0 then s.size else maxSafeInteger)
        omega

theorem dequeue_spec (s : Spique α) (hinv : s.Inv) (hpos0 : s.items ≠ 0) :
    (s.dequeue).2.2 = .ok (s.toList.headD none) ∧
    s.toList = s.toList.headD none :: (s.dequeue).1.toList ∧
    (s.dequeue).1.Inv ∧
    (s.dequeue).1.items = s.items - 1 ∧
    (s.dequeue).1.closed = s.closed ∧
    (s.dequeue).1.size = s.size ∧
    (s.dequeue).1.ringSize = s.ringSize := by
  obtain ⟨hrs, hlen, hwf, hsum, hrlen, hpos, hspA, hspB, hle⟩ := hinv
  have hne : s.chain ≠ [] := List.length_pos.mp hlen
  have hdecomp := chainDecompHead s.chain (mkRing α s.ringSize) hne
  have hhdmem : s.chain.headD (mkRing α s.ringSize) ∈ s.chain :=
    headDMem s.chain (mkRing α s.ringSize) hne
  obtain ⟨hhdwf, hhdsz⟩ := hwf _ hhdmem
  have hsumtl : s.items = (s.chain.headD (mkRing α s.ringSize)).items
      + ((s.chain.tail.map RingBuffer.items).sum) := by
    conv_lhs => rw [hsum, hdecomp, List.map_cons, List.sum_cons]
  have hhdpos : 0 < (s.chain.headD (mkRing α s.ringSize)).items := by
    rcases Nat.lt_or_ge 1 s.chain.length with hgt | hle1
    · exact hpos hgt _ hhdmem
    · have h1 : s.chain.length = 1 := by omega
      obtain ⟨x, hx⟩ := List.length_eq_one.mp h1
      have hxhd : s.chain.headD (mkRing α s.ringSize) = x := by
        rw [hx]
        rfl
      have htl : s.chain.tail = [] := by
        rw [hx]
        rfl
      rw [htl] at hsumtl
      simp only [List.map_nil, List.sum_nil, Nat.add_zero] at hsumtl
      omega
  obtain ⟨hsok, hstl, hswf, hsit, hssz⟩ :=
    RingBuffer.shift_spec (s.chain.headD (mkRing α s.ringSize)) hhdwf hhdpos
  have hpe : (s.chain.headD (mkRing α s.ringSize)).shift =
      (((s.chain.headD (mkRing α s.ringSize)).shift).1,
       Except.ok ((s.chain.headD (mkRing α s.ringSize)).slot 0)) := by
    rw [← hsok]
  generalize hg : ((s.chain.headD (mkRing α s.ringSize)).shift).1 = hr2
    at hstl hswf hsit hssz hpe
  have hx : s.toList.headD none = (s.chain.headD (mkRing α s.ringSize)).slot 0 := by
    conv_lhs => rw [toList, hdecomp, List.map_cons, List.flatten_cons, hstl]
    rfl
  have hmemtl : ∀ r ∈ s.chain.tail, r ∈ s.chain := fun r hr =>
    (List.tail_sublist s.chain).mem hr
  by_cases hret : hr2.items = 0 ∧ 1 < s.rings
  · -- the head ring drained: retire it (it becomes the spare above)
    have hlong : 1 < s.chain.length := by
      rw [← hrlen]
      exact hret.2
    have key : s.dequeue =
        ({ s with
            chain := s.chain.tail,
            spareAbove := some hr2,
            rings := s.rings - 1,
            items := s.items - 1 },
         (if s.items - 1 = 0 then
            [Ev.empty] ++ (if s.closed then [Ev.close] else [])
          else []) ++
         (if ({ s with
            chain := s.chain.tail,
            spareAbove := some hr2,
            rings := s.rings - 1,
            items := s.items - 1 } : Spique α).free ≠ 0 ∧ s.closed = false then [Ev.free]
          else []),
         .ok ((s.chain.headD (mkRing α s.ringSize)).slot 0)) := by
      simp only [dequeue, if_neg hpos0, hpe, List.tail_cons, if_pos hret]
    rw [key, hx]
    have hhdone : (s.chain.headD (mkRing α s.ringSize)).items = 1 := by
      have h1 := hret.1
      omega
    have htl2 : hr2.toList = [] := RingBuffer.toList_eq_nil_of_items_eq_zero _ hret.1
    refine ⟨rfl, ?_, ?_, rfl, rfl, rfl, rfl⟩
    · conv_lhs => rw [toList, hdecomp, List.map_cons, List.flatten_cons, hstl, htl2]
      rfl
    · refine ⟨hrs, ?_, ?_, ?_, ?_, ?_, ⟨hswf, by rw [hssz, hhdsz], hret.1⟩, hspB, ?_⟩
      · show 0 < s.chain.tail.length
        rw [List.length_tail]
        omega
      · intro r hr
        exact hwf r (hmemtl r hr)
      · show s.items - 1 = (s.chain.tail.map RingBuffer.items).sum
        omega
      · show s.rings - 1 = s.chain.tail.length
        rw [List.length_tail]
        omega
      · intro hlong2 r hr
        exact hpos hlong r (hmemtl r hr)
      · show s.items - 1 ≤ (if s.size ≠ 0 then s.size else maxSafeInteger)
        omega
  · -- head ring kept
    have key : s.dequeue =
        ({ s with
            chain := hr2 :: s.chain.tail,
            items := s.items - 1 },
         (if s.items - 1 = 0 then
            [Ev.empty] ++ (if s.closed then [Ev.close] else [])
          else []) ++
         (if ({ s with
            chain := hr2 :: s.chain.tail,
            items := s.items - 1 } : Spique α).free ≠ 0 ∧ s.closed = false then [Ev.free]
          else []),
         .ok ((s.chain.headD (mkRing α s.ringSize)).slot 0)) := by
      simp only [dequeue, if_neg hpos0, hpe, List.tail_cons, if_neg hret]
    rw [key, hx]
    have hlentl : (hr2 :: s.chain.tail).length = s.chain.length := by
      rw [List.length_cons, List.length_tail]
      omega
    refine ⟨rfl, ?_, ?_, rfl, rfl, rfl, rfl⟩
    · conv_lhs => rw [toList, hdecomp, List.map_cons, List.flatten_cons, hstl]
      rfl
    · refine ⟨hrs, by simp, ?_, ?_, ?_, ?_, hspA, hspB, ?_⟩
      · intro r hr
        rcases List.mem_cons.mp hr with h | h
        · rw [h]
          exact ⟨hswf, by rw [hssz, hhdsz]⟩
        · exact hwf r (hmemtl r h)
      · show s.items - 1 = ((hr2 :: s.chain.tail).map RingBuffer.items).sum
        rw [List.map_cons, List.sum_cons, hsit]
        omega
      · show s.rings = (hr2 :: s.chain.tail).length
        rw [hlentl]
        exact hrlen
      · intro hlong r hr
        have hlong2 : 1 < s.chain.length := by
          rw [← hlentl]
          exact hlong
        rcases List.mem_cons.mp hr with h | h
        · rw [h]
          have hnot : ¬ (hr2.items = 0) := by
            intro h0
            exact hret ⟨h0, by rw [hrlen]; exact hlong2⟩
          omega
        · exact hpos hlong2 r (hmemtl r h)
      · show s.items - 1 ≤ (if s.size ≠ 0 then s.size else maxSafeInteger)
        omega

theorem dequeueTail_spec (s : Spique α) (hinv : s.Inv) (hpos0 : s.items ≠ 0) :
    (s.dequeueTail).2.2 = .ok (s.toList.getLastD none) ∧
    s.toList = (s.dequeueTail).1.toList ++ [s.toList.getLastD none] ∧
    (s.dequeueTail).1.Inv ∧
    (s.dequeueTail).1.items = s.items - 1 ∧
    (s.dequeueTail).1.closed = s.closed ∧
    (s.dequeueTail).1.size = s.size ∧
    (s.dequeueTail).1.ringSize = s.ringSize := by
  obtain ⟨hrs, hlen, hwf, hsum, hrlen, hpos, hspA, hspB, hle⟩ := hinv
  have hne : s.chain ≠ [] := List.length_pos.mp hlen
  have hdecomp := chainDecompLast s.chain (mkRing α s.ringSize) hne
  have htlmem : s.chain.getLastD (mkRing α s.ringSize) ∈ s.chain :=
    getLastDMem s.chain (mkRing α s.ringSize) hne
  obtain ⟨htlwf, htlsz⟩ := hwf _ htlmem
  have hsumtl : s.items = ((s.chain.dropLast.map RingBuffer.items).sum)
      + (s.chain.getLastD (mkRing α s.ringSize)).items := by
    conv_lhs => rw [hsum, hdecomp, List.map_append, List.sum_append]
    simp
  have hmemdl : ∀ r ∈ s.chain.dropLast, r ∈ s.chain := fun r hr =>
    (List.dropLast_sublist s.chain).mem hr
  have hlendl : s.chain.dropLast.length = s.chain.length - 1 := List.length_dropLast s.chain
  have htlpos : 0 < (s.chain.getLastD (mkRing α s.ringSize)).items := by
    rcases Nat.lt_or_ge 1 s.chain.length with hgt | hle1
    · exact hpos hgt _ htlmem
    · have h1 : s.chain.length = 1 := by omega
      obtain ⟨x, hx⟩ := List.length_eq_one.mp h1
      have hxtl : s.chain.getLastD (mkRing α s.ringSize) = x := by
        rw [hx]
        rfl
      have hdl : s.chain.dropLast = [] := by
        rw [hx]
        rfl
      rw [hdl] at hsumtl
      simp only [List.map_nil, List.sum_nil, Nat.zero_add] at hsumtl
      omega
  obtain ⟨hsok, hstl, hswf, hsit, hssz, hshd⟩ :=
    RingBuffer.pop_spec (s.chain.getLastD (mkRing α s.ringSize)) htlwf htlpos
  have hpe : (s.chain.getLastD (mkRing α s.ringSize)).pop =
      (((s.chain.getLastD (mkRing α s.ringSize)).pop).1,
       Except.ok ((s.chain.getLastD (mkRing α s.ringSize)).slot
         ((s.chain.getLastD (mkRing α s.ringSize)).items - 1))) := by
    rw [← hsok]
  generalize hg : ((s.chain.getLastD (mkRing α s.ringSize)).pop).1 = tr2
    at hstl hswf hsit hssz hshd hpe
  have hx : s.toList.getLastD none = (s.chain.getLastD (mkRing α s.ringSize)).slot
      ((s.chain.getLastD (mkRing α s.ringSize)).items - 1) := by
    conv_lhs => rw [toList, hdecomp, List.map_append, List.flatten_append]
    simp only [List.map_cons, List.map_nil, List.flatten_cons, List.flatten_nil,
      List.append_nil]
    rw [hstl, ← List.append_assoc]
    exact getLastDConcat _ _ _
  by_cases hret : tr2.items = 0 ∧ 1 < s.rings
  · -- the tail ring drained: retire it (it becomes the spare below)
    have hlong : 1 < s.chain.length := by
      rw [← hrlen]
      exact hret.2
    have key : s.dequeueTail =
        ({ s with
            chain := s.chain.dropLast,
            spareBelow := some tr2,
            rings := s.rings - 1,
            items := s.items - 1 },
         (if s.items - 1 = 0 then
            [Ev.empty] ++ (if s.closed then [Ev.close] else [])
          else []) ++
         (if ({ s with
            chain := s.chain.dropLast,
            spareBelow := some tr2,
            rings := s.rings - 1,
            items := s.items - 1 } : Spique α).free ≠ 0 ∧ s.closed = false then [Ev.free]
          else []),
         .ok ((s.chain.getLastD (mkRing α s.ringSize)).slot
           ((s.chain.getLastD (mkRing α s.ringSize)).items - 1))) := by
      simp only [dequeueTail, if_neg hpos0, hpe, dropLastConcat, if_pos hret]
    rw [key, hx]
    have htlone : (s.chain.getLastD (mkRing α s.ringSize)).items = 1 := by
      have h1 := hret.1
      omega
    have htl2 : tr2.toList = [] := RingBuffer.toList_eq_nil_of_items_eq_zero _ hret.1
    refine ⟨rfl, ?_, ?_, rfl, rfl, rfl, rfl⟩
    · conv_lhs => rw [toList, hdecomp, List.map_append, List.flatten_append]
      simp only [List.map_cons, List.map_nil, List.flatten_cons, List.flatten_nil,
        List.append_nil]
      rw [hstl, htl2]
      simp [toList]
    · refine ⟨hrs, ?_, ?_, ?_, ?_, ?_, hspA, ⟨hswf, by rw [hssz, htlsz], hret.1⟩, ?_⟩
      · show 0 < s.chain.dropLast.length
        omega
      · intro r hr
        exact hwf r (hmemdl r hr)
      · show s.items - 1 = (s.chain.dropLast.map RingBuffer.items).sum
        omega
      · show s.rings - 1 = s.chain.dropLast.length
        omega
      · intro hlong2 r hr
        exact hpos hlong r (hmemdl r hr)
      · show s.items - 1 ≤ (if s.size ≠ 0 then s.size else maxSafeInteger)
        omega
  · -- tail ring kept
    have key : s.dequeueTail =
        ({ s with
            chain := s.chain.dropLast ++ [tr2],
            items := s.items - 1 },
         (if s.items - 1 = 0 then
            [Ev.empty] ++ (if s.closed then [Ev.close] else [])
          else []) ++
         (if ({ s with
            chain := s.chain.dropLast ++ [tr2],
            items := s.items - 1 } : Spique α).free ≠ 0 ∧ s.closed = false then [Ev.free]
          else []),
         .ok ((s.chain.getLastD (mkRing α s.ringSize)).slot
           ((s.chain.getLastD (mkRing α s.ringSize)).items - 1))) := by
      simp only [dequeueTail, if_neg hpos0, hpe, dropLastConcat, if_neg hret]
    rw [key, hx]
    have hlen2 : (s.chain.dropLast ++ [tr2]).length = s.chain.length := by
      rw [List.length_append]
      simp only [List.length_cons, List.length_nil]
      omega
    refine ⟨rfl, ?_, ?_, rfl, rfl, rfl, rfl⟩
    · conv_lhs => rw [toList, hdecomp, List.map_append, List.flatten_append]
      simp only [List.map_cons, List.map_nil, List.flatten_cons, List.flatten_nil,
        List.append_nil]
      rw [hstl]
      conv_rhs => rw [toList, List.map_append, List.flatten_append]
      simp
    · refine ⟨hrs, by simp, ?_, ?_, ?_, ?_, hspA, hspB, ?_⟩
      · intro r hr
        rcases List.mem_append.mp hr with h | h
        · exact hwf r (hmemdl r h)
        · rw [List.mem_singleton.mp h]
          exact ⟨hswf, by rw [hssz, htlsz]⟩
      · show s.items - 1 = ((s.chain.dropLast ++ [tr2]).map RingBuffer.items).sum
        rw [List.map_append, List.sum_append]
        simp only [List.map_cons, List.map_nil, List.sum_cons, List.sum_nil]
        omega
      · show s.rings = (s.chain.dropLast ++ [tr2]).length
        rw [hlen2]
        exact hrlen
      · intro hlong r hr
        have hlong2 : 1 < s.chain.length := by
          rw [← hlen2]
          exact hlong
        rcases List.mem_append.mp hr with h | h
        · exact hpos hlong2 r (hmemdl r h)
        · rw [List.mem_singleton.mp h]
          have hnot : ¬ (tr2.items = 0) := by
            intro h0
            exact hret ⟨h0, by rw [hrlen]; exact hlong2⟩
          omega
      · show s.items - 1 ≤ (if s.size ≠ 0 then s.size else maxSafeInteger)
        omega

theorem enqueue_closed_eq (s : Spique α) (v : α) (hcl : s.closedGet = true) :
    s.enqueue v = (s, [], .error .queueClosed) := by
  simp [enqueue, hcl]

theorem enqueue_full_eq (s : Spique α) (v : α) (hcl : s.closedGet = false)
    (hfree : s.free = 0) : s.enqueue v = (s, [], .error .queueFull) := by
  simp [enqueue, hcl, hfree]

theorem enqueueHead_closed_eq (s : Spique α) (v : α) (hcl : s.closedGet = true) :
    s.enqueueHead v = (s, [], .error .queueClosed) := by
  simp [enqueueHead, hcl]

theorem enqueueHead_full_eq (s : Spique α) (v : α) (hcl : s.closedGet = false)
    (hfree : s.free = 0) : s.enqueueHead v = (s, [], .error .queueFull) := by
  simp [enqueueHead, hcl, hfree]

theorem dequeue_empty_eq (s : Spique α) (h : s.items = 0) :
    s.dequeue = (s, [], .error .queueEmpty) := by
  simp [dequeue, h]

theorem dequeueTail_empty_eq (s : Spique α) (h : s.items = 0) :
    s.dequeueTail = (s, [], .error .queueEmpty) := by
  simp [dequeueTail, h]

theorem enqueue_ok_spec (s : Spique α) (v : α) (hinv : s.Inv)
    (hok : (s.enqueue v).2.2 = .ok ()) :
    (s.enqueue v).1.toList = s.toList ++ [some v] ∧
    (s.enqueue v).1.Inv ∧
    (s.enqueue v).1.items = s.items + 1 := by
  cases hcl : s.closedGet with
  | true =>
    rw [enqueue_closed_eq s v hcl] at hok
    simp at hok
  | false =>
    by_cases hfree : s.free = 0
    · rw [enqueue_full_eq s v hcl hfree] at hok
      simp at hok
    · obtain ⟨_, h1, h2, h3, _⟩ := enqueue_spec s v hinv hcl hfree
      exact ⟨h1, h2, h3⟩

theorem enqueue_err_state (s : Spique α) (v : α) (hinv : s.Inv) (e : Err)
    (he : (s.enqueue v).2.2 = .error e) :
    (s.enqueue v).1 = s ∧ (s.enqueue v).2.1 = [] := by
  cases hcl : s.closedGet with
  | true =>
    rw [enqueue_closed_eq s v hcl]
    exact ⟨rfl, rfl⟩
  | false =>
    by_cases hfree : s.free = 0
    · rw [enqueue_full_eq s v hcl hfree]
      exact ⟨rfl, rfl⟩
    · rw [(enqueue_spec s v hinv hcl hfree).1] at he
      simp at he

theorem enqueueHead_ok_spec (s : Spique α) (v : α) (hinv : s.Inv)
    (hok : (s.enqueueHead v).2.2 = .ok ()) :
    (s.enqueueHead v).1.toList = some v :: s.toList ∧
    (s.enqueueHead v).1.Inv ∧
    (s.enqueueHead v).1.items = s.items + 1 := by
  cases hcl : s.closedGet with
  | true =>
    rw [enqueueHead_closed_eq s v hcl] at hok
    simp at hok
  | false =>
    by_cases hfree : s.free = 0
    · rw [enqueueHead_full_eq s v hcl hfree] at hok
      simp at hok
    · obtain ⟨_, h1, h2, h3, _⟩ := enqueueHead_spec s v hinv hcl hfree
      exact ⟨h1, h2, h3⟩

theorem enqueueHead_err_state (s : Spique α) (v : α) (hinv : s.Inv) (e : Err)
    (he : (s.enqueueHead v).2.2 = .error e) :
    (s.enqueueHead v).1 = s ∧ (s.enqueueHead v).2.1 = [] := by
  cases hcl : s.closedGet with
  | true =>
    rw [enqueueHead_closed_eq s v hcl]
    exact ⟨rfl, rfl⟩
  | false =>
    by_cases hfree : s.free = 0
    · rw [enqueueHead_full_eq s v hcl hfree]
      exact ⟨rfl, rfl⟩
    · rw [(enqueueHead_spec s v hinv hcl hfree).1] at he
      simp at he

theorem dequeue_ok_spec (s : Spique α) (hinv : s.Inv) (x : Option α)
    (hok : (s.dequeue).2.2 = .ok x) :
    s.toList = x :: (s.dequeue).1.toList ∧
    (s.dequeue).1.Inv ∧
    (s.dequeue).1.items = s.items - 1 := by
  by_cases h0 : s.items = 0
  · rw [dequeue_empty_eq s h0] at hok
    simp at hok
  · obtain ⟨h1, h2, h3, h4, _⟩ := dequeue_spec s hinv h0
    rw [h1] at hok
    have hx : x = s.toList.headD none := by
      injection hok with h
      exact h.symm
    rw [hx]
    exact ⟨h2, h3, h4⟩

theorem dequeue_err_state (s : Spique α) (hinv : s.Inv) (e : Err)
    (he : (s.dequeue).2.2 = .error e) :
    (s.dequeue).1 = s := by
  by_cases h0 : s.items = 0
  · rw [dequeue_empty_eq s h0]
  · rw [(dequeue_spec s hinv h0).1] at he
    simp at he

theorem dequeueTail_ok_spec (s : Spique α) (hinv : s.Inv) (x : Option α)
    (hok : (s.dequeueTail).2.2 = .ok x) :
    s.toList = (s.dequeueTail).1.toList ++ [x] ∧
    (s.dequeueTail).1.Inv ∧
    (s.dequeueTail).1.items = s.items - 1 := by
  by_cases h0 : s.items = 0
  · rw [dequeueTail_empty_eq s h0] at hok
    simp at hok
  · obtain ⟨h1, h2, h3, h4, _⟩ := dequeueTail_spec s hinv h0
    rw [h1] at hok
    have hx : x = s.toList.getLastD none := by
      injection hok with h
      exact h.symm
    rw [hx]
    exact ⟨h2, h3, h4⟩

theorem dequeueTail_err_state (s : Spique α) (hinv : s.Inv) (e : Err)
    (he : (s.dequeueTail).2.2 = .error e) :
    (s.dequeueTail).1 = s := by
  by_cases h0 : s.items = 0
  · rw [dequeueTail_empty_eq s h0]
  · rw [(dequeueTail_spec s hinv h0).1] at he
    simp at he

end Spique

/-- One step of a client interaction: either `enqueue v` (resp. `enqueueHead v`
for the mirrored run) or `dequeue` (resp. `dequeueTail`). -/
inductive Op (α : Type) where
  | enq (v : α)
  | deq
deriving DecidableEq, Repr

/-- The value an `Op.enq` carries. -/
def Op.enqArg {α : Type} : Op α → Option α
  | .enq v => some v
  | .deq => none

/-- Outcome of running a sequence of operations: final state, the values
accepted by the successful enqueues (in order), the values returned by the
successful dequeues (in order), and whether every enqueue succeeded. -/
structure RunRes (α : Type) where
  state : Spique α
  ins : List α
  outs : List (Option α)
  enqOk : Bool
deriving Repr

/-- Run a sequence of direct `enqueue`/`dequeue` calls.  A call that throws
leaves the state unchanged (per the code) and contributes nothing to
`ins`/`outs`; a failed enqueue clears `enqOk`. -/
def runQ {α : Type} (s : Spique α) : List (Op α) → RunRes α
  | [] => ⟨s, [], [], true⟩
  | Op.enq v :: rest =>
    match s.enqueue v with
    | (s1, _, Except.ok _) =>
      let r := runQ s1 rest
      ⟨r.state, v :: r.ins, r.outs, r.enqOk⟩
    | (s1, _, Except.error _) =>
      let r := runQ s1 rest
      ⟨r.state, r.ins, r.outs, false⟩
  | Op.deq :: rest =>
    match s.dequeue with
    | (s1, _, Except.ok x) =>
      let r := runQ s1 rest
      ⟨r.state, r.ins, x :: r.outs, r.enqOk⟩
    | (s1, _, Except.error _) => runQ s1 rest

/-- The mirrored run: `Op.enq` means `enqueueHead`, `Op.deq` means
`dequeueTail`. -/
def runH {α : Type} (s : Spique α) : List (Op α) → RunRes α
  | [] => ⟨s, [], [], true⟩
  | Op.enq v :: rest =>
    match s.enqueueHead v with
    | (s1, _, Except.ok _) =>
      let r := runH s1 rest
      ⟨r.state, v :: r.ins, r.outs, r.enqOk⟩
    | (s1, _, Except.error _) =>
      let r := runH s1 rest
      ⟨r.state, r.ins, r.outs, false⟩
  | Op.deq :: rest =>
    match s.dequeueTail with
    | (s1, _, Except.ok x) =>
      let r := runH s1 rest
      ⟨r.state, r.ins, x :: r.outs, r.enqOk⟩
    | (s1, _, Except.error _) => runH s1 rest

namespace Spique

variable {α : Type}

theorem runQ_spec (ops : List (Op α)) : ∀ (s : Spique α), s.Inv →
    (runQ s ops).state.Inv ∧
    (runQ s ops).outs ++ (runQ s ops).state.toList = s.toList ++ (runQ s ops).ins.map some := by
  induction ops with
  | nil =>
    intro s hinv
    exact ⟨hinv, by simp [runQ]⟩
  | cons op rest ih =>
    intro s hinv
    cases op with
    | enq v =>
      rcases he : s.enqueue v with ⟨s1, evs, res⟩
      have hs1 : s1 = (s.enqueue v).1 := by rw [he]
      cases res with
      | ok u =>
        cases u
        have hok : (s.enqueue v).2.2 = Except.ok () := by rw [he]
        obtain ⟨htl, hinv1, _⟩ := enqueue_ok_spec s v hinv hok
        rw [← hs1] at htl hinv1
        have hrun : runQ s (Op.enq v :: rest) =
            ⟨(runQ s1 rest).state, v :: (runQ s1 rest).ins,
             (runQ s1 rest).outs, (runQ s1 rest).enqOk⟩ := by
          simp [runQ, he]
        obtain ⟨ih1, ih2⟩ := ih s1 hinv1
        rw [hrun]
        refine ⟨ih1, ?_⟩
        show (runQ s1 rest).outs ++ (runQ s1 rest).state.toList
            = s.toList ++ (v :: (runQ s1 rest).ins).map some
        rw [List.map_cons, ih2, htl]
        simp
      | error e =>
        have herr : (s.enqueue v).2.2 = Except.error e := by rw [he]
        obtain ⟨hst, _⟩ := enqueue_err_state s v hinv e herr
        have hs1s : s1 = s := by rw [hs1, hst]
        have hrun : runQ s (Op.enq v :: rest) =
            ⟨(runQ s1 rest).state, (runQ s1 rest).ins, (runQ s1 rest).outs, false⟩ := by
          simp [runQ, he]
        rw [hrun, hs1s]
        exact ih s hinv
    | deq =>
      rcases he : s.dequeue with ⟨s1, evs, res⟩
      have hs1 : s1 = (s.dequeue).1 := by rw [he]
      cases res with
      | ok x =>
        have hok : (s.dequeue).2.2 = Except.ok x := by rw [he]
        obtain ⟨htl, hinv1, _⟩ := dequeue_ok_spec s hinv x hok
        rw [← hs1] at htl hinv1
        have hrun : runQ s (Op.deq :: rest) =
            ⟨(runQ s1 rest).state, (runQ s1 rest).ins,
             x :: (runQ s1 rest).outs, (runQ s1 rest).enqOk⟩ := by
          simp [runQ, he]
        obtain ⟨ih1, ih2⟩ := ih s1 hinv1
        rw [hrun]
        refine ⟨ih1, ?_⟩
        show x :: ((runQ s1 rest).outs ++ (runQ s1 rest).state.toList)
            = s.toList ++ ((runQ s1 rest).ins).map some
        rw [ih2, htl]
        rfl
      | error e =>
        have herr : (s.dequeue).2.2 = Except.error e := by rw [he]
        have hst := dequeue_err_state s hinv e herr
        have hs1s : s1 = s := by rw [hs1, hst]
        have hrun : runQ s (Op.deq :: rest) = runQ s1 rest := by
          simp [runQ, he]
        rw [hrun, hs1s]
        exact ih s hinv

theorem runH_spec (ops : List (Op α)) : ∀ (s : Spique α), s.Inv →
    (runH s ops).state.Inv ∧
    (runH s ops).outs ++ (runH s ops).state.toList.reverse
      = s.toList.reverse ++ (runH s ops).ins.map some := by
  induction ops with
  | nil =>
    intro s hinv
    exact ⟨hinv, by simp [runH]⟩
  | cons op rest ih =>
    intro s hinv
    cases op with
    | enq v =>
      rcases he : s.enqueueHead v with ⟨s1, evs, res⟩
      have hs1 : s1 = (s.enqueueHead v).1 := by rw [he]
      cases res with
      | ok u =>
        cases u
        have hok : (s.enqueueHead v).2.2 = Except.ok () := by rw [he]
        obtain ⟨htl, hinv1, _⟩ := enqueueHead_ok_spec s v hinv hok
        rw [← hs1] at htl hinv1
        have hrun : runH s (Op.enq v :: rest) =
            ⟨(runH s1 rest).state, v :: (runH s1 rest).ins,
             (runH s1 rest).outs, (runH s1 rest).enqOk⟩ := by
          simp [runH, he]
        obtain ⟨ih1, ih2⟩ := ih s1 hinv1
        rw [hrun]
        refine ⟨ih1, ?_⟩
        show (runH s1 rest).outs ++ (runH s1 rest).state.toList.reverse
            = s.toList.reverse ++ (v :: (runH s1 rest).ins).map some
        rw [List.map_cons, ih2, htl]
        simp
      | error e =>
        have herr : (s.enqueueHead v).2.2 = Except.error e := by rw [he]
        obtain ⟨hst, _⟩ := enqueueHead_err_state s v hinv e herr
        have hs1s : s1 = s := by rw [hs1, hst]
        have hrun : runH s (Op.enq v :: rest) =
            ⟨(runH s1 rest).state, (runH s1 rest).ins, (runH s1 rest).outs, false⟩ := by
          simp [runH, he]
        rw [hrun, hs1s]
        exact ih s hinv
    | deq =>
      rcases he : s.dequeueTail with ⟨s1, evs, res⟩
      have hs1 : s1 = (s.dequeueTail).1 := by rw [he]
      cases res with
      | ok x =>
        have hok : (s.dequeueTail).2.2 = Except.ok x := by rw [he]
        obtain ⟨htl, hinv1, _⟩ := dequeueTail_ok_spec s hinv x hok
        rw [← hs1] at htl hinv1
        have hrun : runH s (Op.deq :: rest) =
            ⟨(runH s1 rest).state, (runH s1 rest).ins,
             x :: (runH s1 rest).outs, (runH s1 rest).enqOk⟩ := by
          simp [runH, he]
        obtain ⟨ih1, ih2⟩ := ih s1 hinv1
        rw [hrun]
        refine ⟨ih1, ?_⟩
        show x :: ((runH s1 rest).outs ++ (runH s1 rest).state.toList.reverse)
            = s.toList.reverse ++ ((runH s1 rest).ins).map some
        rw [ih2, htl]
        simp
      | error e =>
        have herr : (s.dequeueTail).2.2 = Except.error e := by rw [he]
        have hst := dequeueTail_err_state s hinv e herr
        have hs1s : s1 = s := by rw [hs1, hst]
        have hrun : runH s (Op.deq :: rest) = runH s1 rest := by
          simp [runH, he]
        rw [hrun, hs1s]
        exact ih s hinv

theorem runQ_ins_of_enqOk (ops : List (Op α)) : ∀ (s : Spique α),
    (runQ s ops).enqOk = true → (runQ s ops).ins = ops.filterMap Op.enqArg := by
  induction ops with
  | nil =>
    intro s _
    simp [runQ]
  | cons op rest ih =>
    intro s hok
    cases op with
    | enq v =>
      rcases he : s.enqueue v with ⟨s1, evs, res⟩
      cases res with
      | ok u =>
        have hrun : runQ s (Op.enq v :: rest) =
            ⟨(runQ s1 rest).state, v :: (runQ s1 rest).ins,
             (runQ s1 rest).outs, (runQ s1 rest).enqOk⟩ := by
          simp [runQ, he]
        rw [hrun] at hok ⊢
        have := ih s1 hok
        simp [List.filterMap_cons, Op.enqArg, this]
      | error e =>
        have hrun : runQ s (Op.enq v :: rest) =
            ⟨(runQ s1 rest).state, (runQ s1 rest).ins, (runQ s1 rest).outs, false⟩ := by
          simp [runQ, he]
        rw [hrun] at hok
        simp at hok
    | deq =>
      rcases he : s.dequeue with ⟨s1, evs, res⟩
      cases res with
      | ok x =>
        have hrun : runQ s (Op.deq :: rest) =
            ⟨(runQ s1 rest).state, (runQ s1 rest).ins,
             x :: (runQ s1 rest).outs, (runQ s1 rest).enqOk⟩ := by
          simp [runQ, he]
        rw [hrun] at hok ⊢
        have := ih s1 hok
        simp [List.filterMap_cons, Op.enqArg, this]
      | error e =>
        have hrun : runQ s (Op.deq :: rest) = runQ s1 rest := by
          simp [runQ, he]
        rw [hrun] at hok ⊢
        have := ih s1 hok
        simp [List.filterMap_cons, Op.enqArg, this]

theorem runH_ins_of_enqOk (ops : List (Op α)) : ∀ (s : Spique α),
    (runH s ops).enqOk = true → (runH s ops).ins = ops.filterMap Op.enqArg := by
  induction ops with
  | nil =>
    intro s _
    simp [runH]
  | cons op rest ih =>
    intro s hok
    cases op with
    | enq v =>
      rcases he : s.enqueueHead v with ⟨s1, evs, res⟩
      cases res with
      | ok u =>
        have hrun : runH s (Op.enq v :: rest) =
            ⟨(runH s1 rest).state, v :: (runH s1 rest).ins,
             (runH s1 rest).outs, (runH s1 rest).enqOk⟩ := by
          simp [runH, he]
        rw [hrun] at hok ⊢
        have := ih s1 hok
        simp [List.filterMap_cons, Op.enqArg, this]
      | error e =>
        have hrun : runH s (Op.enq v :: rest) =
            ⟨(runH s1 rest).state, (runH s1 rest).ins, (runH s1 rest).outs, false⟩ := by
          simp [runH, he]
        rw [hrun] at hok
        simp at hok
    | deq =>
      rcases he : s.dequeueTail with ⟨s1, evs, res⟩
      cases res with
      | ok x =>
        have hrun : runH s (Op.deq :: rest) =
            ⟨(runH s1 rest).state, (runH s1 rest).ins,
             x :: (runH s1 rest).outs, (runH s1 rest).enqOk⟩ := by
          simp [runH, he]
        rw [hrun] at hok ⊢
        have := ih s1 hok
        simp [List.filterMap_cons, Op.enqArg, this]
      | error e =>
        have hrun : runH s (Op.deq :: rest) = runH s1 rest := by
          simp [runH, he]
        rw [hrun] at hok ⊢
        have := ih s1 hok
        simp [List.filterMap_cons, Op.enqArg, this]

theorem dequeue_state_eq (s : Spique α) (hd : RingBuffer α) (t : List (RingBuffer α))
    (hpos : s.items ≠ 0) (hchain : s.chain = hd :: t)
    (hhdwf : hd.Wf) (hhdpos : 0 < hd.items) :
    (s.dequeue).1 =
      if (hd.shift).1.items = 0 ∧ 1 < s.rings then
        { s with
            chain := t,
            spareAbove := some (hd.shift).1,
            rings := s.rings - 1,
            items := s.items - 1 }
      else
        { s with chain := (hd.shift).1 :: t, items := s.items - 1 } := by
  obtain ⟨hsok, _, _, _, _⟩ := RingBuffer.shift_spec hd hhdwf hhdpos
  have hpe : hd.shift = ((hd.shift).1, Except.ok (hd.slot 0)) := by
    rw [← hsok]
  have hhd : s.chain.headD (mkRing α s.ringSize) = hd := by
    rw [hchain]
    rfl
  have htl : s.chain.tail = t := by
    rw [hchain]
    rfl
  generalize hg : (hd.shift).1 = hr2 at hpe ⊢
  by_cases hret : hr2.items = 0 ∧ 1 < s.rings
  · rw [if_pos hret]
    simp only [dequeue, if_neg hpos, hhd, hpe, htl, List.tail_cons, if_pos hret]
  · rw [if_neg hret]
    simp only [dequeue, if_neg hpos, hhd, hpe, htl, List.tail_cons, if_neg hret]

theorem enqueue_single_nonfull (s : Spique α) (v : α) (r : RingBuffer α)
    (hchain : s.chain = [r]) (hcl : s.closed = false) (hsz0 : s.size = 0)
    (hlt : s.items < maxSafeInteger) (hr : r.items < r.size) (hrwf : r.Wf) :
    (s.enqueue v).1 = { s with chain := [(r.push v).1], items := s.items + 1 } := by
  have hclg : s.closedGet = false := by
    simp [closedGet, hcl]
  have hfree : s.free ≠ 0 := by
    have h2 : maxSafeInteger - s.items ≠ 0 := by omega
    simpa [free, hsz0] using h2
  have htl : s.chain.getLastD (mkRing α s.ringSize) = r := by
    rw [hchain]
    rfl
  have htlfree : r.free ≠ 0 := by
    have h2 : r.size - r.items ≠ 0 := by omega
    simpa [RingBuffer.free] using h2
  obtain ⟨hpok, _, _, _, _⟩ := RingBuffer.push_spec r v hrwf hr
  have hpe : r.push v = ((r.push v).1, Except.ok ()) := by
    rw [← hpok]
  have hdl : s.chain.dropLast = [] := by
    rw [hchain]
    rfl
  generalize hg : (r.push v).1 = r2 at hpe ⊢
  simp only [enqueue, hclg, Bool.false_eq_true, if_false, if_neg hfree, htl,
    if_neg htlfree, hpe, hdl, List.nil_append]

theorem enqueue_single_full (s : Spique α) (v : α) (r : RingBuffer α)
    (hchain : s.chain = [r]) (hcl : s.closed = false) (hsz0 : s.size = 0)
    (hlt : s.items < maxSafeInteger) (hfull : r.items = r.size)
    (hspB : s.spareBelow = none) (hRpos : 0 < s.ringSize) :
    (s.enqueue v).1 =
      { s with
          chain := [r, ((mkRing α s.ringSize).push v).1],
          spareBelow := none,
          rings := s.rings + 1,
          items := s.items + 1 } := by
  have hclg : s.closedGet = false := by
    simp [closedGet, hcl]
  have hfree : s.free ≠ 0 := by
    have h2 : maxSafeInteger - s.items ≠ 0 := by omega
    simpa [free, hsz0] using h2
  have htl : s.chain.getLastD (mkRing α s.ringSize) = r := by
    rw [hchain]
    rfl
  have htlfree : r.free = 0 := by
    show r.size - r.items = 0
    omega
  have hb : s.spareBelow.getD (mkRing α s.ringSize) = mkRing α s.ringSize := by
    rw [hspB]
    rfl
  obtain ⟨hpok, _, _, _, _⟩ :=
    RingBuffer.push_spec (mkRing α s.ringSize) v (RingBuffer.wf_mkRing _ hRpos)
      (by simpa [mkRing] using hRpos)
  have hpe : (mkRing α s.ringSize).push v = (((mkRing α s.ringSize).push v).1, Except.ok ()) := by
    rw [← hpok]
  generalize hg : ((mkRing α s.ringSize).push v).1 = b2 at hpe ⊢
  have key : (s.chain ++ [mkRing α s.ringSize]).dropLast ++ [b2] = [r, b2] := by
    rw [dropLastConcat, hchain]
    rfl
  simp only [enqueue, hclg, Bool.false_eq_true, if_false, if_neg hfree, htl,
    if_pos htlfree, hb, getLastDConcat, hpe, key]

/-- Iterated `enqueue`, keeping only the state. -/
def enqAll (s : Spique α) (vs : List α) : Spique α :=
  vs.foldl (fun t v => (t.enqueue v).1) s

/-- Iterated `dequeue`, keeping only the state. -/
def deqN : Spique α → Nat → Spique α
  | s, 0 => s
  | s, n + 1 => deqN (s.dequeue).1 n

theorem fillSingle (R : Nat) (hRm : R ≤ maxSafeInteger) (vs : List α) :
    ∀ (s : Spique α) (r : RingBuffer α),
    s.chain = [r] → s.closed = false → s.size = 0 → s.ringSize = R →
    r.Wf → r.size = R → s.items = r.items → r.items + vs.length ≤ R →
    ∃ r2 : RingBuffer α,
      enqAll s vs = { s with chain := [r2], items := s.items + vs.length } ∧
      r2.Wf ∧ r2.size = R ∧ r2.items = r.items + vs.length := by
  induction vs with
  | nil =>
    intro s r hchain hcl hsz0 hrsz hrwf hrszR hit hcap
    refine ⟨r, ?_, hrwf, hrszR, by simp⟩
    show s = { s with chain := [r], items := s.items + 0 }
    rw [← hchain]
    rfl
  | cons v vs ih =>
    intro s r hchain hcl hsz0 hrsz hrwf hrszR hit hcap
    have hlt : s.items < maxSafeInteger := by
      simp only [List.length_cons] at hcap
      omega
    have hrlt : r.items < r.size := by
      simp only [List.length_cons] at hcap
      omega
    have hstep := enqueue_single_nonfull s v r hchain hcl hsz0 hlt hrlt hrwf
    obtain ⟨hp2ok, hp2tl, hp2wf, hp2it, hp2sz, hp2hd⟩ := RingBuffer.push_spec r v hrwf hrlt
    have henq : enqAll s (v :: vs) = enqAll (s.enqueue v).1 vs := rfl
    rw [henq, hstep]
    obtain ⟨r2, h1, h2, h3, h4⟩ :=
      ih { s with chain := [(r.push v).1], items := s.items + 1 } ((r.push v).1)
        rfl hcl hsz0 hrsz hp2wf (by rw [hp2sz, hrszR])
        (by show s.items + 1 = (r.push v).1.items; rw [hp2it, hit])
        (by simp only [List.length_cons] at hcap; omega)
    refine ⟨r2, ?_, h2, h3, ?_⟩
    · rw [h1]
      show ({ s with
          chain := [r2],
          items := s.items + 1 + vs.length } : Spique α) = _
      have harith : s.items + 1 + vs.length = s.items + (vs.length + 1) := by omega
      rw [harith]
      rfl
    · rw [h4, hp2it]
      simp only [List.length_cons]
      omega

theorem drainTwo : ∀ (m : Nat) (s : Spique α) (a b : RingBuffer α),
    s.chain = [a, b] → a.items = m + 1 → a.Wf → b.items = 1 → b.Wf →
    s.items = m + 2 → s.rings = 2 →
    (deqN s (m + 2)).rings = 1 ∧ (deqN s (m + 2)).chain.length = 1 ∧
    (deqN s (m + 2)).items = 0 := by
  intro m
  induction m with
  | zero =>
    intro s a b hchain hai hawf hbi hbwf hsi hsr
    obtain ⟨_, _, haswf, hasit, _⟩ := RingBuffer.shift_spec a hawf (by omega)
    have hstep1 := dequeue_state_eq s a [b] (by omega) hchain hawf (by omega)
    have hret : (a.shift).1.items = 0 ∧ 1 < s.rings := by
      constructor
      · rw [hasit, hai]
      · omega
    rw [if_pos hret] at hstep1
    have hd2 : deqN s 2 = deqN (s.dequeue).1 1 := rfl
    rw [hd2, hstep1]
    set s1 : Spique α := { s with
        chain := [b],
        spareAbove := some (a.shift).1,
        rings := s.rings - 1,
        items := s.items - 1 } with hs1
    have hs1i : s1.items = 1 := by
      rw [hs1]
      show s.items - 1 = 1
      omega
    have hs1r : s1.rings = 1 := by
      rw [hs1]
      show s.rings - 1 = 1
      omega
    have hstep2 := dequeue_state_eq s1 b [] (by omega) rfl hbwf (by omega)
    have hret2 : ¬ ((b.shift).1.items = 0 ∧ 1 < s1.rings) := by
      intro hc
      rw [hs1r] at hc
      omega
    rw [if_neg hret2] at hstep2
    have hd1 : deqN s1 1 = deqN (s1.dequeue).1 0 := rfl
    rw [hd1, hstep2]
    refine ⟨hs1r, rfl, ?_⟩
    show s1.items - 1 = 0
    omega
  | succ m ih =>
    intro s a b hchain hai hawf hbi hbwf hsi hsr
    obtain ⟨_, _, haswf, hasit, hassz⟩ := RingBuffer.shift_spec a hawf (by omega)
    have hstep1 := dequeue_state_eq s a [b] (by omega) hchain hawf (by omega)
    have hret : ¬ ((a.shift).1.items = 0 ∧ 1 < s.rings) := by
      intro hc
      rw [hasit, hai] at hc
      omega
    rw [if_neg hret] at hstep1
    have hd : deqN s (m + 3) = deqN (s.dequeue).1 (m + 2) := rfl
    rw [hd, hstep1]
    exact ih { s with chain := [(a.shift).1, b], items := s.items - 1 } ((a.shift).1) b
      rfl (by rw [hasit, hai]; omega) haswf hbi hbwf
      (by show s.items - 1 = m + 2; omega) hsr

end Spique

/-- One registered transform step, modelled as the list of outputs it yields
for one input (a plain function yields one output, a generator step zero or
more; the function-vs-generator dispatch is out of scope per the spec). -/
def pipeline {α : Type} (ts : List (α → List α)) (v : α) : List α :=
  ts.foldl (fun acc t => acc.flatMap t) [v]

/-- Result of the synchronous part of `attachSource`'s feed loop: final
state, events emitted by the insertions, the values inserted, the values
still pending in the generator, whether `once("free", feed)` was registered
(`deferred`), and whether the loop died on an exception inside the async
body (`dropped` - the promise rejects and the remaining values are lost). -/
structure FeedRes (α : Type) where
  state : Spique α
  events : List Ev
  inserted : List α
  remainder : List α
  deferred : Bool
  dropped : Bool
deriving Repr

/-- The feed loop of `attachSource` for a synchronous generator source
(spique.js lines 107-120): while the destination has free space, pull the
next value and insert it with `enqueue(value, false, false)`; when space
runs out subscribe `once("free", feed)`; an insertion throw aborts the
loop (the exception is captured by the enclosing `async` function). -/
def feedGo {α : Type} : List α → Spique α → FeedRes α
  | [], s =>
    if s.free = 0 then ⟨s, [], [], [], true, false⟩
    else ⟨s, [], [], [], false, false⟩
  | v :: rest, s =>
    if s.free = 0 then ⟨s, [], [], v :: rest, true, false⟩
    else
      match s.enqueue v with
      | (s1, evs, Except.ok _) =>
        let r := feedGo rest s1
        ⟨r.state, evs ++ r.events, v :: r.inserted, r.remainder, r.deferred, r.dropped⟩
      | (s1, evs, Except.error _) => ⟨s1, evs, [], rest, false, true⟩

/-- The full `enqueue(value)` entry point (spique.js lines 154-165).  With
no transforms it is the direct path.  With transforms the value is rerouted:
`this.enqueue(transform(value), true, false)` hands the pipeline generator
to `attachSource`, which is an `async function`, so any exception raised
while feeding becomes a promise rejection - the call site itself always
returns normally (`Except.ok ()`). -/
def enqueueFullPath {α : Type} (ts : List (α → List α)) (s : Spique α) (v : α) :
    FeedRes α × Except Err Unit :=
  if ts.isEmpty then
    let r := s.enqueue v
    (⟨r.1, r.2.1, [], [], false, false⟩, r.2.2)
  else
    (feedGo (pipeline ts v) s, Except.ok ())

/-- The feed loop of `attachSource` for a synchronous generator source when
the source was handed in through `enqueueHead` (`forward = false`, so
`insert = "enqueueHead"`): identical to `feedGo` except that each pulled
value is inserted with `enqueueHead(value, false, false)`. -/
def feedGoHead {α : Type} : List α → Spique α → FeedRes α
  | [], s =>
    if s.free = 0 then ⟨s, [], [], [], true, false⟩
    else ⟨s, [], [], [], false, false⟩
  | v :: rest, s =>
    if s.free = 0 then ⟨s, [], [], v :: rest, true, false⟩
    else
      match s.enqueueHead v with
      | (s1, evs, Except.ok _) =>
        let r := feedGoHead rest s1
        ⟨r.state, evs ++ r.events, v :: r.inserted, r.remainder, r.deferred, r.dropped⟩
      | (s1, evs, Except.error _) => ⟨s1, evs, [], rest, false, true⟩

/-- The full `enqueueHead(value)` entry point (spique.js lines 192-203):
mirror image of `enqueueFullPath` - with transforms the pipeline generator
is handed to `attachSource` with `forward = false`, and the async reroute
again returns normally at the call site. -/
def enqueueHeadFullPath {α : Type} (ts : List (α → List α)) (s : Spique α) (v : α) :
    FeedRes α × Except Err Unit :=
  if ts.isEmpty then
    let r := s.enqueueHead v
    (⟨r.1, r.2.1, [], [], false, false⟩, r.2.2)
  else
    (feedGoHead (pipeline ts v) s, Except.ok ())

/-- Modelled from the spec: "the state that event represents" for each
event kind - non-empty for `data`, empty for `empty`, no free slot for
`full`, a free slot for `free`, and closed-and-drained for `close`. -/
def eventStateHolds {α : Type} (s : Spique α) (ev : Ev) : Bool :=
  match ev with
  | .data => decide (0 < s.items)
  | .empty => decide (s.items = 0)
  | .full => decide (s.free = 0)
  | .free => decide (0 < s.free)
  | .close => s.closed && decide (s.items = 0)

namespace Spique

variable {α : Type}

theorem feedGo_no_drop (pending : List α) : ∀ (s : Spique α),
    s.Inv → s.closedGet = false →
    (feedGo pending s).dropped = false ∧
    (feedGo pending s).inserted ++ (feedGo pending s).remainder = pending ∧
    ((feedGo pending s).deferred = true ↔ (feedGo pending s).state.free = 0) ∧
    (feedGo pending s).state.Inv := by
  induction pending with
  | nil =>
    intro s hinv hcl
    by_cases hf : s.free = 0
    · refine ⟨by simp [feedGo, hf], by simp [feedGo, hf], ?_, by simpa [feedGo, hf] using hinv⟩
      simp [feedGo, hf]
    · refine ⟨by simp [feedGo, hf], by simp [feedGo, hf], ?_, by simpa [feedGo, hf] using hinv⟩
      simp [feedGo, hf]
  | cons v rest ih =>
    intro s hinv hcl
    by_cases hf : s.free = 0
    · refine ⟨by simp [feedGo, hf], by simp [feedGo, hf], ?_, by simpa [feedGo, hf] using hinv⟩
      simp [feedGo, hf]
    · rcases he : s.enqueue v with ⟨s1, evs, res⟩
      have hs1 : s1 = (s.enqueue v).1 := by rw [he]
      obtain ⟨hok, _, hinv1, hit1, hclp, _, _⟩ := enqueue_spec s v hinv hcl hf
      have hres : res = Except.ok () := by
        rw [he] at hok
        exact hok
      subst hres
      have hcl1 : s1.closedGet = false := by
        rw [hs1]
        simp only [closedGet]
        rw [hclp, hit1]
        simp
      have hrun : feedGo (v :: rest) s =
          ⟨(feedGo rest s1).state, evs ++ (feedGo rest s1).events,
           v :: (feedGo rest s1).inserted, (feedGo rest s1).remainder,
           (feedGo rest s1).deferred, (feedGo rest s1).dropped⟩ := by
        simp [feedGo, hf, he]
      obtain ⟨ih1, ih2, ih3, ih4⟩ := ih s1 (hs1 ▸ hinv1) hcl1
      rw [hrun]
      exact ⟨ih1, by simpa using ih2, ih3, ih4⟩

theorem feedGo_drop_closed (s : Spique α) (v : α) (rest : List α)
    (hcl : s.closedGet = true) (hf : s.free ≠ 0) :
    (feedGo (v :: rest) s).dropped = true ∧
    (feedGo (v :: rest) s).inserted = [] ∧
    (feedGo (v :: rest) s).deferred = false ∧
    (feedGo (v :: rest) s).state = s := by
  have he := enqueue_closed_eq s v hcl
  refine ⟨?_, ?_, ?_, ?_⟩ <;> simp [feedGo, hf, he]

theorem feedGoHead_no_drop (pending : List α) : ∀ (s : Spique α),
    s.Inv → s.closedGet = false →
    (feedGoHead pending s).dropped = false ∧
    (feedGoHead pending s).inserted ++ (feedGoHead pending s).remainder = pending ∧
    ((feedGoHead pending s).deferred = true ↔ (feedGoHead pending s).state.free = 0) ∧
    (feedGoHead pending s).state.Inv := by
  induction pending with
  | nil =>
    intro s hinv hcl
    by_cases hf : s.free = 0
    · refine ⟨by simp [feedGoHead, hf], by simp [feedGoHead, hf], ?_,
        by simpa [feedGoHead, hf] using hinv⟩
      simp [feedGoHead, hf]
    · refine ⟨by simp [feedGoHead, hf], by simp [feedGoHead, hf], ?_,
        by simpa [feedGoHead, hf] using hinv⟩
      simp [feedGoHead, hf]
  | cons v rest ih =>
    intro s hinv hcl
    by_cases hf : s.free = 0
    · refine ⟨by simp [feedGoHead, hf], by simp [feedGoHead, hf], ?_,
        by simpa [feedGoHead, hf] using hinv⟩
      simp [feedGoHead, hf]
    · rcases he : s.enqueueHead v with ⟨s1, evs, res⟩
      have hs1 : s1 = (s.enqueueHead v).1 := by rw [he]
      obtain ⟨hok, _, hinv1, hit1, hclp, _, _⟩ := enqueueHead_spec s v hinv hcl hf
      have hres : res = Except.ok () := by
        rw [he] at hok
        exact hok
      subst hres
      have hcl1 : s1.closedGet = false := by
        rw [hs1]
        simp only [closedGet]
        rw [hclp, hit1]
        simp
      have hrun : feedGoHead (v :: rest) s =
          ⟨(feedGoHead rest s1).state, evs ++ (feedGoHead rest s1).events,
           v :: (feedGoHead rest s1).inserted, (feedGoHead rest s1).remainder,
           (feedGoHead rest s1).deferred, (feedGoHead rest s1).dropped⟩ := by
        simp [feedGoHead, hf, he]
      obtain ⟨ih1, ih2, ih3, ih4⟩ := ih s1 (hs1 ▸ hinv1) hcl1
      rw [hrun]
      exact ⟨ih1, by simpa using ih2, ih3, ih4⟩

theorem feedGoHead_drop_closed (s : Spique α) (v : α) (rest : List α)
    (hcl : s.closedGet = true) (hf : s.free ≠ 0) :
    (feedGoHead (v :: rest) s).dropped = true ∧
    (feedGoHead (v :: rest) s).inserted = [] ∧
    (feedGoHead (v :: rest) s).deferred = false ∧
    (feedGoHead (v :: rest) s).state = s := by
  have he := enqueueHead_closed_eq s v hcl
  refine ⟨?_, ?_, ?_, ?_⟩ <;> simp [feedGoHead, hf, he]

theorem enqueue_no_free_event (s : Spique α) (v : α) : Ev.free ∉ (s.enqueue v).2.1 := by
  cases hcl : s.closedGet with
  | true =>
    rw [enqueue_closed_eq s v hcl]
    simp
  | false =>
    by_cases hfree : s.free = 0
    · rw [enqueue_full_eq s v hcl hfree]
      simp
    · simp only [enqueue, hcl, Bool.false_eq_true, if_false, if_neg hfree]
      split
      · dsimp only
        split_ifs <;> decide
      · simp

theorem enqueueHead_no_free_event (s : Spique α) (v : α) :
    Ev.free ∉ (s.enqueueHead v).2.1 := by
  cases hcl : s.closedGet with
  | true =>
    rw [enqueueHead_closed_eq s v hcl]
    simp
  | false =>
    by_cases hfree : s.free = 0
    · rw [enqueueHead_full_eq s v hcl hfree]
      simp
    · simp only [enqueueHead, hcl, Bool.false_eq_true, if_false, if_neg hfree]
      split
      · dsimp only
        split_ifs <;> decide
      · simp

theorem dequeue_no_free_event (s : Spique α) (hcl : s.closed = true) :
    Ev.free ∉ (s.dequeue).2.1 := by
  by_cases h0 : s.items = 0
  · rw [dequeue_empty_eq s h0]
    simp
  · simp only [dequeue, if_neg h0]
    split
    · dsimp only
      split_ifs <;> simp_all
    · simp

theorem dequeueTail_no_free_event (s : Spique α) (hcl : s.closed = true) :
    Ev.free ∉ (s.dequeueTail).2.1 := by
  by_cases h0 : s.items = 0
  · rw [dequeueTail_empty_eq s h0]
    simp
  · simp only [dequeueTail, if_neg h0]
    split
    · dsimp only
      split_ifs <;> simp_all
    · simp

theorem close_no_free_event (s : Spique α) : Ev.free ∉ (Spique.close s).2 := by
  simp only [close]
  split_ifs <;> decide

end Spique

/-- C1 counterexample: after `close()` on a queue still holding one item, a
direct `enqueue` does not fail with `Closed` - it succeeds and inserts the
value (the code checks the `closed` getter, which is false while items
remain).  The claim as stated is therefore false. -/
theorem claim_C1_counterexample :
    (Spique.close ((Spique.enqueue (mkSpique Nat 3 4) 0).1)).1.closed = true ∧
    0 < (Spique.close ((Spique.enqueue (mkSpique Nat 3 4) 0).1)).1.items ∧
    (Spique.enqueue (Spique.close ((Spique.enqueue (mkSpique Nat 3 4) 0).1)).1 1).2.2
      = Except.ok () ∧
    (Spique.enqueue (Spique.close ((Spique.enqueue (mkSpique Nat 3 4) 0).1)).1 1).1.items
      = 2 := by
  decide

/-- C1 (amended): after the closed flag has been set, a direct `enqueue` or
`enqueueHead` fails with `Closed` and inserts nothing exactly when the queue
has also drained (`items = 0`); while items remain, direct insertion is
still accepted. -/
theorem claim_C1 {α : Type} (s : Spique α) (v : α)
    (hcl : s.closed = true) (h0 : s.items = 0) :
    s.enqueue v = (s, [], Except.error Err.queueClosed) ∧
    s.enqueueHead v = (s, [], Except.error Err.queueClosed) := by
  have hg : s.closedGet = true := by
    simp [Spique.closedGet, hcl, h0]
  exact ⟨Spique.enqueue_closed_eq s v hg, Spique.enqueueHead_closed_eq s v hg⟩

/-- Witness for C1 at a concrete closed, drained queue. -/
theorem claim_C1_witness :
    (Spique.close (mkSpique Nat 2 2)).1.closed = true ∧
    (Spique.close (mkSpique Nat 2 2)).1.items = 0 ∧
    Spique.enqueue (Spique.close (mkSpique Nat 2 2)).1 7
      = ((Spique.close (mkSpique Nat 2 2)).1, [], Except.error Err.queueClosed) :=
  ⟨by decide, by decide,
   (claim_C1 (Spique.close (mkSpique Nat 2 2)).1 7 (by decide) (by decide)).1⟩

/-- C2: for every sequence of direct enqueue/dequeue calls on a fresh Spique
in which every enqueue is accepted (the item count never exceeds the
capacity), the n-th value returned by a successful dequeue is exactly the
n-th value passed to enqueue; symmetrically for `enqueueHead` paired with
`dequeueTail`. -/
theorem claim_C2 {α : Type} (size ringSize : Nat) (hR : 0 < ringSize)
    (ops opsH : List (Op α))
    (hok : (runQ (mkSpique α size ringSize) ops).enqOk = true)
    (hokH : (runH (mkSpique α size ringSize) opsH).enqOk = true) :
    (∀ n v, (ops.filterMap Op.enqArg)[n]? = some v →
      n < (runQ (mkSpique α size ringSize) ops).outs.length →
      (runQ (mkSpique α size ringSize) ops).outs[n]? = some (some v)) ∧
    (∀ n v, (opsH.filterMap Op.enqArg)[n]? = some v →
      n < (runH (mkSpique α size ringSize) opsH).outs.length →
      (runH (mkSpique α size ringSize) opsH).outs[n]? = some (some v)) := by
  constructor
  · intro n v hv hn
    obtain ⟨_, hrel⟩ := Spique.runQ_spec ops (mkSpique α size ringSize)
      (Spique.inv_mkSpique size ringSize hR)
    rw [Spique.toList_mkSpique, List.nil_append] at hrel
    have hins := Spique.runQ_ins_of_enqOk ops (mkSpique α size ringSize) hok
    have h1 : (runQ (mkSpique α size ringSize) ops).outs[n]?
        = ((runQ (mkSpique α size ringSize) ops).outs
           ++ (runQ (mkSpique α size ringSize) ops).state.toList)[n]? :=
      (List.getElem?_append_left hn).symm
    rw [h1, hrel, hins, List.getElem?_map, hv]
    rfl
  · intro n v hv hn
    obtain ⟨_, hrel⟩ := Spique.runH_spec opsH (mkSpique α size ringSize)
      (Spique.inv_mkSpique size ringSize hR)
    rw [Spique.toList_mkSpique] at hrel
    simp only [List.reverse_nil, List.nil_append] at hrel
    have hins := Spique.runH_ins_of_enqOk opsH (mkSpique α size ringSize) hokH
    have h1 : (runH (mkSpique α size ringSize) opsH).outs[n]?
        = ((runH (mkSpique α size ringSize) opsH).outs
           ++ (runH (mkSpique α size ringSize) opsH).state.toList.reverse)[n]? :=
      (List.getElem?_append_left hn).symm
    rw [h1, hrel, hins, List.getElem?_map, hv]
    rfl

/-- Witness for C2 on a concrete operation sequence. -/
theorem claim_C2_witness :
    (runQ (mkSpique Nat 5 2) [Op.enq 1, Op.enq 2, Op.deq, Op.deq]).outs[0]?
      = some (some 1) ∧
    (runH (mkSpique Nat 5 2) [Op.enq 1, Op.enq 2, Op.deq, Op.deq]).outs[0]?
      = some (some 1) :=
  ⟨(claim_C2 5 2 (by decide) [Op.enq 1, Op.enq 2, Op.deq, Op.deq]
      [Op.enq 1, Op.enq 2, Op.deq, Op.deq] (by decide) (by decide)).1 0 1
      (by decide) (by decide),
   (claim_C2 5 2 (by decide) [Op.enq 1, Op.enq 2, Op.deq, Op.deq]
      [Op.enq 1, Op.enq 2, Op.deq, Op.deq] (by decide) (by decide)).2 0 1
      (by decide) (by decide)⟩

/-- C3: the externally visible closed status (the `closed` getter) is true
iff the internal closed flag is set and `items = 0`; in particular, right
after `close()` the getter reports exactly whether the queue was already
drained. -/
theorem claim_C3 {α : Type} (s : Spique α) :
    (s.closedGet = true ↔ s.closed = true ∧ s.items = 0) ∧
    (Spique.close s).1.closedGet = (s.items == 0) := by
  constructor
  · simp [Spique.closedGet]
  · simp [Spique.close, Spique.closedGet]

/-- C4 counterexample: on an already-closed, already-drained queue, calling
`close()` again emits the `close` notification a second time (the code
re-emits on every `close()` call while the queue is empty), so permanent
listeners are invoked again.  The claim as stated is false. -/
theorem claim_C4_counterexample :
    (Spique.close (mkSpique Nat 2 2)).2 = [Ev.close] ∧
    (Spique.close (Spique.close (mkSpique Nat 2 2)).1).2 = [Ev.close] := by
  decide

/-- C4 (amended): calling `close()` on an already-closed, already-drained
queue fires the closed-and-drained notification again to the registered
listeners (closure notification is re-fired on every `close()` call while
the queue is empty, it is not idempotent). -/
theorem claim_C4 {α : Type} (s : Spique α) (_hcl : s.closed = true) (h0 : s.items = 0) :
    (Spique.close s).2 = [Ev.close] := by
  simp [Spique.close, h0]

/-- Witness for C4 at a concrete closed, drained queue. -/
theorem claim_C4_witness :
    (Spique.close (Spique.close (mkSpique Nat 2 2)).1).2 = [Ev.close] :=
  claim_C4 (Spique.close (mkSpique Nat 2 2)).1 (by decide) (by decide)

/-- C5: once the closed flag is set, no operation emits the `free`
(space-available) notification: the `free` emit in `dequeue` and
`dequeueTail` is suppressed, and `enqueue`, `enqueueHead` and `close`
never emit `free` at all.  (`peek`/`peekTail` emit nothing.) -/
theorem claim_C5 {α : Type} (s : Spique α) (v : α) (hcl : s.closed = true) :
    Ev.free ∉ (s.dequeue).2.1 ∧
    Ev.free ∉ (s.dequeueTail).2.1 ∧
    Ev.free ∉ (s.enqueue v).2.1 ∧
    Ev.free ∉ (s.enqueueHead v).2.1 ∧
    Ev.free ∉ (Spique.close s).2 :=
  ⟨Spique.dequeue_no_free_event s hcl, Spique.dequeueTail_no_free_event s hcl,
   Spique.enqueue_no_free_event s v, Spique.enqueueHead_no_free_event s v,
   Spique.close_no_free_event s⟩

/-- Witness for C5 at a concrete closed queue holding one item. -/
theorem claim_C5_witness :
    Ev.free ∉ ((Spique.close ((Spique.enqueue (mkSpique Nat 3 4) 0).1)).1.dequeue).2.1 :=
  (claim_C5 (Spique.close ((Spique.enqueue (mkSpique Nat 3 4) 0).1)).1 9 (by decide)).1

/-- C6: a freshly registered listener is invoked immediately iff the queue
is already in the state the event represents - non-empty for `data`, empty
for `empty`, no free slot for `full`, a free slot for `free`, and
closed-and-drained for `close` - and is not invoked otherwise. -/
theorem claim_C6 {α : Type} (s : Spique α) (ev : Ev) :
    Spique.newListenerFires s ev = eventStateHolds s ev := by
  have hbeq : ∀ n : Nat, (n == 0) = decide (n = 0) := by
    intro n
    by_cases h : n = 0 <;> simp [h]
  have hbne : ∀ n : Nat, (n != 0) = decide (0 < n) := by
    intro n
    by_cases h : n = 0 <;> simp [h, Nat.pos_of_ne_zero]
  cases ev <;>
    simp [Spique.newListenerFires, eventStateHolds, Spique.closedGet, hbeq, hbne]

/-- C7: for every well-formed ring of capacity `N`, `push` fails with
`Overflow` (Buffer is full) when `items = N` and changes nothing; otherwise
it stores the value at `(head + items) mod N`, increments `items`, and
leaves `head` and every occupied slot unchanged. -/
theorem claim_C7 {α : Type} (r : RingBuffer α) (v : α) (hwf : r.Wf) :
    (r.items = r.size → r.push v = (r, Except.error Err.bufferFull)) ∧
    (r.items ≠ r.size →
      (r.push v).2 = Except.ok () ∧
      (r.push v).1.buffer = r.buffer.set ((r.head + r.items) % r.size) (some v) ∧
      (r.push v).1.items = r.items + 1 ∧
      (r.push v).1.head = r.head ∧
      (r.push v).1.size = r.size ∧
      (∀ i, i < r.items → (r.push v).1.slot i = r.slot i)) := by
  obtain ⟨hbl, hhd, hit⟩ := hwf
  constructor
  · intro hfull
    apply RingBuffer.push_full
    omega
  · intro hne2
    have hlt : r.items < r.size := by omega
    have hpush : r.push v =
        ({ r with
            buffer := r.buffer.set ((r.head + r.items) % r.size) (some v),
            items := r.items + 1 }, Except.ok ()) := by
      simp [RingBuffer.push, hlt]
    rw [hpush]
    refine ⟨rfl, rfl, rfl, rfl, rfl, ?_⟩
    intro i hi
    show (r.buffer.set ((r.head + r.items) % r.size) (some v)).getD
        ((r.head + i) % r.size) none = r.slot i
    rw [listGetDSetNe]
    · rfl
    · intro hc
      have : r.items = i := modIdxInj r.head r.size r.items i hlt (by omega) hc
      omega

/-- Witness for C7 at a concrete non-full and a concrete full ring. -/
theorem claim_C7_witness :
    (RingBuffer.push (⟨2, 0, 1, [some 5, none]⟩ : RingBuffer Nat) 9).2 = Except.ok () ∧
    RingBuffer.push (⟨2, 0, 2, [some 5, some 6]⟩ : RingBuffer Nat) 9
      = (⟨2, 0, 2, [some 5, some 6]⟩, Except.error Err.bufferFull) :=
  ⟨((claim_C7 ⟨2, 0, 1, [some 5, none]⟩ 9 (by decide)).2 (by decide)).1,
   (claim_C7 ⟨2, 0, 2, [some 5, some 6]⟩ 9 (by decide)).1 (by decide)⟩

/-- C8: every operation that fails with one of the declared errors leaves
the observable state exactly as it was: a failing ring `push`, `unshift`,
`pop` or `shift` returns the ring unchanged, and a failing Spique
`enqueue`, `enqueueHead`, `dequeue` or `dequeueTail` returns the queue
unchanged (the `peek` operations never mutate by construction). -/
theorem claim_C8 {α : Type} (r : RingBuffer α) (v : α) (s : Spique α) (w : α)
    (hinv : s.Inv) :
    (∀ e, (r.push v).2 = Except.error e → (r.push v).1 = r) ∧
    (∀ e, (r.unshift v).2 = Except.error e → (r.unshift v).1 = r) ∧
    (∀ e, (r.pop).2 = Except.error e → (r.pop).1 = r) ∧
    (∀ e, (r.shift).2 = Except.error e → (r.shift).1 = r) ∧
    (∀ e, (s.enqueue w).2.2 = Except.error e → (s.enqueue w).1 = s) ∧
    (∀ e, (s.enqueueHead w).2.2 = Except.error e → (s.enqueueHead w).1 = s) ∧
    (∀ e, (s.dequeue).2.2 = Except.error e → (s.dequeue).1 = s) ∧
    (∀ e, (s.dequeueTail).2.2 = Except.error e → (s.dequeueTail).1 = s) := by
  refine ⟨?_, ?_, ?_, ?_,
    fun e he => (Spique.enqueue_err_state s w hinv e he).1,
    fun e he => (Spique.enqueueHead_err_state s w hinv e he).1,
    fun e he => Spique.dequeue_err_state s hinv e he,
    fun e he => Spique.dequeueTail_err_state s hinv e he⟩
  · intro e he
    by_cases hlt : r.items < r.size
    · simp [RingBuffer.push, hlt] at he
    · rw [RingBuffer.push_full r v hlt]
  · intro e he
    by_cases hlt : r.items < r.size
    · simp [RingBuffer.unshift, hlt] at he
    · rw [RingBuffer.unshift_full r v hlt]
  · intro e he
    by_cases h0 : r.items = 0
    · rw [RingBuffer.pop_empty r h0]
    · simp [RingBuffer.pop, h0] at he
  · intro e he
    by_cases h0 : r.items = 0
    · rw [RingBuffer.shift_empty r h0]
    · simp [RingBuffer.shift, h0] at he

/-- Witness for C8: a full ring rejecting `push` and an empty queue
rejecting `dequeue`, both left unchanged. -/
theorem claim_C8_witness :
    (RingBuffer.push (⟨2, 0, 2, [some 0, some 1]⟩ : RingBuffer Nat) 5).1
      = ⟨2, 0, 2, [some 0, some 1]⟩ ∧
    ((mkSpique Nat 2 2).dequeue).1 = mkSpique Nat 2 2 :=
  ⟨(claim_C8 ⟨2, 0, 2, [some 0, some 1]⟩ 5 (mkSpique Nat 2 2) 5 (by decide)).1
      Err.bufferFull (by decide),
   (claim_C8 ⟨2, 0, 2, [some 0, some 1]⟩ 5 (mkSpique Nat 2 2) 5 (by decide)).2.2.2.2.2.2.1
      Err.queueEmpty (by decide)⟩

/-- C9: on a fresh unbounded Spique with ring size `R`, enqueueing `R + 1`
items makes exactly two rings active (one extra allocation), and dequeueing
all `R + 1` items leaves exactly one ring in the chain. -/
theorem claim_C9 {α : Type} (R : Nat) (hR : 0 < R) (hRm : R < maxSafeInteger)
    (vs : List α) (hlen : vs.length = R + 1) :
    (Spique.enqAll (mkSpique α 0 R) vs).rings = 2 ∧
    (Spique.deqN (Spique.enqAll (mkSpique α 0 R) vs) (R + 1)).rings = 1 ∧
    (Spique.deqN (Spique.enqAll (mkSpique α 0 R) vs) (R + 1)).chain.length = 1 := by
  have hne : vs ≠ [] := by
    intro h
    rw [h] at hlen
    simp at hlen
  have hsplit : vs = vs.dropLast ++ [vs.getLast hne] :=
    (List.dropLast_append_getLast hne).symm
  have hdl : vs.dropLast.length = R := by
    rw [List.length_dropLast, hlen]
    omega
  obtain ⟨r2, hfill, hr2wf, hr2sz, hr2it⟩ :=
    Spique.fillSingle R (le_of_lt hRm) vs.dropLast (mkSpique α 0 R) (mkRing α R)
      rfl rfl rfl rfl (RingBuffer.wf_mkRing R hR) rfl rfl
      (by show 0 + vs.dropLast.length ≤ R; rw [hdl]; omega)
  have hr2itR : r2.items = R := by
    rw [hr2it]
    show 0 + vs.dropLast.length = R
    rw [hdl]
    omega
  set sMid := Spique.enqAll (mkSpique α 0 R) vs.dropLast with hsMid
  have hlast : Spique.enqAll (mkSpique α 0 R) vs = (sMid.enqueue (vs.getLast hne)).1 := by
    conv_lhs => rw [hsplit]
    simp [hsMid, Spique.enqAll, List.foldl_append]
  have hMchain : sMid.chain = [r2] := by
    rw [hfill]
  have hMclosed : sMid.closed = false := by
    rw [hfill]
    rfl
  have hMsize : sMid.size = 0 := by
    rw [hfill]
    rfl
  have hMring : sMid.ringSize = R := by
    rw [hfill]
    rfl
  have hMrings : sMid.rings = 1 := by
    rw [hfill]
    rfl
  have hMspB : sMid.spareBelow = none := by
    rw [hfill]
    rfl
  have hMitems : sMid.items = R := by
    rw [hfill]
    show (mkSpique α 0 R).items + vs.dropLast.length = R
    show 0 + vs.dropLast.length = R
    rw [hdl]
    omega
  have hstep := Spique.enqueue_single_full sMid (vs.getLast hne) r2
    hMchain hMclosed hMsize (by rw [hMitems]; exact hRm)
    (by rw [hr2itR, hr2sz]) hMspB (by rw [hMring]; exact hR)
  rw [hlast, hstep]
  obtain ⟨_, _, hbwf, hbit, hbsz, _⟩ :=
    RingBuffer.push_spec (mkRing α sMid.ringSize) (vs.getLast hne)
      (RingBuffer.wf_mkRing _ (by rw [hMring]; exact hR))
      (by show (0 : Nat) < sMid.ringSize; rw [hMring]; exact hR)
  have hbit1 : ((mkRing α sMid.ringSize).push (vs.getLast hne)).1.items = 1 := by
    rw [hbit]
    rfl
  constructor
  · show sMid.rings + 1 = 2
    rw [hMrings]
  · have harith : R + 1 = (R - 1) + 2 := by omega
    rw [harith]
    have hdrain := Spique.drainTwo (R - 1)
      ({ sMid with
          chain := [r2, ((mkRing α sMid.ringSize).push (vs.getLast hne)).1],
          spareBelow := none,
          rings := sMid.rings + 1,
          items := sMid.items + 1 })
      r2 (((mkRing α sMid.ringSize).push (vs.getLast hne)).1)
      rfl (by omega) hr2wf hbit1 hbwf
      (by show sMid.items + 1 = R - 1 + 2; rw [hMitems]; omega)
      (by show sMid.rings + 1 = 2; rw [hMrings])
    exact ⟨hdrain.1, hdrain.2.1⟩

/-- Witness for C9 at `R = 2` and a concrete list of three values. -/
theorem claim_C9_witness :
    (Spique.enqAll (mkSpique Nat 0 2) [10, 20, 30]).rings = 2 ∧
    (Spique.deqN (Spique.enqAll (mkSpique Nat 0 2) [10, 20, 30]) 3).rings = 1 ∧
    (Spique.deqN (Spique.enqAll (mkSpique Nat 0 2) [10, 20, 30]) 3).chain.length = 1 :=
  claim_C9 2 (by decide) (by decide) [10, 20, 30] (by decide)

/-- C10 counterexample: on a visibly closed (closed and drained) queue with
one registered transform, a direct `enqueue` or `enqueueHead` throws
nothing at the call site, but the pipeline output is neither inserted
(although free slots exist) nor deferred to a space-available
notification: the insertion throw inside the async `attachSource` body
becomes a promise rejection and the value is dropped, on both the forward
and the head-insertion path.  The deferral part of the claim is therefore
false. -/
theorem claim_C10_counterexample :
    0 < (Spique.close (mkSpique Nat 2 2)).1.free ∧
    (enqueueFullPath [fun x => [x]] (Spique.close (mkSpique Nat 2 2)).1 5).2
      = Except.ok () ∧
    (enqueueFullPath [fun x => [x]] (Spique.close (mkSpique Nat 2 2)).1 5).1.inserted
      = [] ∧
    (enqueueFullPath [fun x => [x]] (Spique.close (mkSpique Nat 2 2)).1 5).1.deferred
      = false ∧
    (enqueueFullPath [fun x => [x]] (Spique.close (mkSpique Nat 2 2)).1 5).1.dropped
      = true ∧
    (enqueueHeadFullPath [fun x => [x]] (Spique.close (mkSpique Nat 2 2)).1 5).2
      = Except.ok () ∧
    (enqueueHeadFullPath [fun x => [x]] (Spique.close (mkSpique Nat 2 2)).1 5).1.inserted
      = [] ∧
    (enqueueHeadFullPath [fun x => [x]] (Spique.close (mkSpique Nat 2 2)).1 5).1.deferred
      = false ∧
    (enqueueHeadFullPath [fun x => [x]] (Spique.close (mkSpique Nat 2 2)).1 5).1.dropped
      = true := by
  refine ⟨by decide, rfl, rfl, rfl, rfl, rfl, rfl, rfl, rfl⟩

/-- C10 (amended): with at least one registered transform, a direct
`enqueue(value)` or `enqueueHead(value)` never throws `Full` or `Closed`
at the call site (the reroute through the async `attachSource` returns
normally).  On a queue that is not visibly closed, the pipeline outputs
are inserted while free slots exist, the rest stays pending, and the feed
is deferred to a space-available notification exactly when the queue ran
out of free slots; on a visibly closed queue with free slots the outputs
are dropped inside the rejected promise - nothing is inserted and nothing
is deferred.  Both halves hold symmetrically for the two insertion
directions. -/
theorem claim_C10 {α : Type} (ts : List (α → List α)) (s : Spique α) (v : α)
    (hts : ts ≠ []) (hinv : s.Inv) :
    ((enqueueFullPath ts s v).2 = Except.ok () ∧
     (s.closedGet = false →
       (enqueueFullPath ts s v).1.dropped = false ∧
       (enqueueFullPath ts s v).1.inserted ++ (enqueueFullPath ts s v).1.remainder
         = pipeline ts v ∧
       ((enqueueFullPath ts s v).1.deferred = true ↔
         (enqueueFullPath ts s v).1.state.free = 0)) ∧
     (s.closedGet = true → 0 < s.free → ∀ w rest, pipeline ts v = w :: rest →
       (enqueueFullPath ts s v).1.dropped = true ∧
       (enqueueFullPath ts s v).1.inserted = [] ∧
       (enqueueFullPath ts s v).1.deferred = false ∧
       (enqueueFullPath ts s v).1.state = s)) ∧
    ((enqueueHeadFullPath ts s v).2 = Except.ok () ∧
     (s.closedGet = false →
       (enqueueHeadFullPath ts s v).1.dropped = false ∧
       (enqueueHeadFullPath ts s v).1.inserted ++ (enqueueHeadFullPath ts s v).1.remainder
         = pipeline ts v ∧
       ((enqueueHeadFullPath ts s v).1.deferred = true ↔
         (enqueueHeadFullPath ts s v).1.state.free = 0)) ∧
     (s.closedGet = true → 0 < s.free → ∀ w rest, pipeline ts v = w :: rest →
       (enqueueHeadFullPath ts s v).1.dropped = true ∧
       (enqueueHeadFullPath ts s v).1.inserted = [] ∧
       (enqueueHeadFullPath ts s v).1.deferred = false ∧
       (enqueueHeadFullPath ts s v).1.state = s)) := by
  have hne : ts.isEmpty = false := by
    cases ts with
    | nil => simp at hts
    | cons a l => rfl
  have hfp : enqueueFullPath ts s v = (feedGo (pipeline ts v) s, Except.ok ()) := by
    simp [enqueueFullPath, hne]
  have hfph : enqueueHeadFullPath ts s v
      = (feedGoHead (pipeline ts v) s, Except.ok ()) := by
    simp [enqueueHeadFullPath, hne]
  constructor
  · rw [hfp]
    refine ⟨rfl, ?_, ?_⟩
    · intro hcl
      obtain ⟨h1, h2, h3, _⟩ := Spique.feedGo_no_drop (pipeline ts v) s hinv hcl
      exact ⟨h1, h2, h3⟩
    · intro hcl hfree w rest hpipe
      rw [hpipe]
      exact Spique.feedGo_drop_closed s w rest hcl (by omega)
  · rw [hfph]
    refine ⟨rfl, ?_, ?_⟩
    · intro hcl
      obtain ⟨h1, h2, h3, _⟩ := Spique.feedGoHead_no_drop (pipeline ts v) s hinv hcl
      exact ⟨h1, h2, h3⟩
    · intro hcl hfree w rest hpipe
      rw [hpipe]
      exact Spique.feedGoHead_drop_closed s w rest hcl (by omega)

/-- Witness for C10 on a fresh open queue with an identity transform,
exercising both insertion directions. -/
theorem claim_C10_witness :
    (enqueueFullPath [fun x => [x]] (mkSpique Nat 3 2) 7).2 = Except.ok () ∧
    (enqueueFullPath [fun x => [x]] (mkSpique Nat 3 2) 7).1.dropped = false ∧
    (enqueueHeadFullPath [fun x => [x]] (mkSpique Nat 3 2) 7).2 = Except.ok () ∧
    (enqueueHeadFullPath [fun x => [x]] (mkSpique Nat 3 2) 7).1.dropped = false :=
  ⟨((claim_C10 [fun x => [x]] (mkSpique Nat 3 2) 7 (List.cons_ne_nil _ _)
      (by decide)).1).1,
   (((claim_C10 [fun x => [x]] (mkSpique Nat 3 2) 7 (List.cons_ne_nil _ _)
      (by decide)).1).2.1 (by decide)).1,
   ((claim_C10 [fun x => [x]] (mkSpique Nat 3 2) 7 (List.cons_ne_nil _ _)
      (by decide)).2).1,
   (((claim_C10 [fun x => [x]] (mkSpique Nat 3 2) 7 (List.cons_ne_nil _ _)
      (by decide)).2).2.1 (by decide)).1⟩
